import Mathlib

/-!
Verification development for the layer-voting tallying engine
("ninja tortoise") of the go-spacemesh repository.

The Go source (package `consensus`) is embedded shallowly:

* Go maps become association lists (`goFind` / `goInsert`) with Go map
  semantics (lookup of a missing key yields the zero value, assignment
  replaces or appends).  The two `for ... range` loops whose iteration
  order is observable (`patterns` in `processBlock`, `sUpdated` in
  `findMinimalGoodLayer`) take an explicit iteration-order oracle, since
  Go randomises map iteration order.
* Go pointers to `vec` cells become indices into an explicit heap
  (`List Vec`); the package-level shared constants `Support`, `Against`
  and `Abstain` live at fixed addresses 0, 1, 2.  `Negate` and
  `Multiplay` write through their receiver pointer exactly as the source
  does.
* A Go panic (nil-map write, nil-pointer dereference, the explicit
  `panic("unknown block!")`) is modelled by a poison flag `err` carried
  next to the engine state: once set, every subsequent operation is a
  no-op, which matches the way a panic aborts the rest of the update.
* Machine integers are `Nat`/`Int` with explicit `% 2 ^ 32` where the Go
  code computes in `uint32`.  The comparison
  `float64(support) > 0.5 * float64(thr)` is exact for the integer
  magnitudes involved (well below `2 ^ 53`), so it is embedded as the
  exact integer comparison `2 * support > thr`.
* `mesh.Block`, `mesh.LayerID` and `common.Uint32ToBytes` are code of the
  repository that is not under the sources given here; they are modelled
  from the spec where noted.
-/

namespace NT

/-! ## Go map primitives -/

/-- Lookup in a Go map modelled as an association list (first match). -/
def goFind [DecidableEq κ] : List (κ × ν) → κ → Option ν
  | [], _ => none
  | (k0, v0) :: rest, k => if k0 = k then some v0 else goFind rest k

/-- Go map assignment: replace the value of an existing key in place,
otherwise append the new binding. -/
def goInsert [DecidableEq κ] : List (κ × ν) → κ → ν → List (κ × ν)
  | [], k, v => [(k, v)]
  | (k0, v0) :: rest, k, v =>
    if k0 = k then (k0, v) :: rest else (k0, v0) :: goInsert rest k v

/-- Two-level lookup `m[k][k2]`; reading a missing outer key yields the
nil map, whose reads yield the zero value, exactly as in Go. -/
def goFind2 [DecidableEq κ] [DecidableEq κ2]
    (m : List (κ × List (κ2 × ν))) (k : κ) (k2 : κ2) : Option ν :=
  match goFind m k with
  | none => none
  | some inner => goFind inner k2

theorem goFind_goInsert_self [DecidableEq κ] (m : List (κ × ν)) (k : κ) (v : ν) :
    goFind (goInsert m k v) k = some v := by
  induction m with
  | nil => simp [goInsert, goFind]
  | cons kv rest ih =>
    by_cases h : kv.1 = k
    · simp [goInsert, goFind, h]
    · simp [goInsert, goFind, h, ih]

theorem goFind_goInsert_ne [DecidableEq κ] (m : List (κ × ν)) (k k2 : κ) (v : ν)
    (h : k ≠ k2) : goFind (goInsert m k v) k2 = goFind m k2 := by
  induction m with
  | nil => simp [goInsert, goFind, h]
  | cons kv rest ih =>
    by_cases h0 : kv.1 = k
    · simp [goInsert, goFind, h0, h]
    · by_cases h2 : kv.1 = k2 <;> simp [goInsert, goFind, h0, h2, Ne.symm h, ih]

/-- General form: a lookup after an insert. -/
theorem goFind_goInsert [DecidableEq κ] (m : List (κ × ν)) (k k2 : κ) (v : ν) :
    goFind (goInsert m k v) k2 = if k = k2 then some v else goFind m k2 := by
  by_cases h : k = k2
  · subst h; simp [goFind_goInsert_self]
  · simp [h, goFind_goInsert_ne m k k2 v h]

/-! ## Opinion vectors and the pointer heap

`type vec [2]int`; the source passes `*vec` around and the package keeps
three shared pointers `Support`, `Against`, `Abstain`.  The heap is the
arena of all allocated `vec` cells, with those three constants at the
fixed addresses 0, 1 and 2. -/

abbrev Vec := Int × Int

abbrev Heap := List Vec

def supportPtr : Nat := 0

def againstPtr : Nat := 1

def abstainPtr : Nat := 2

/-- The package-level heap at start-up: `Support = &vec{1,0}`,
`Against = &vec{0,1}`, `Abstain = &vec{0,0}`. -/
def initHeap : Heap := [(1, 0), (0, 1), (0, 0)]

def heapGet (h : Heap) (p : Nat) : Vec := (h.get? p).getD (0, 0)

def heapSet (h : Heap) (p : Nat) (v : Vec) : Heap := h.set p v

def heapAlloc (h : Heap) (v : Vec) : Heap × Nat := (h ++ [v], h.length)

/-- `func (a *vec) Add(v *vec) *vec` — nil is the identity; otherwise a
fresh cell holding the componentwise sum is allocated. -/
def vecAdd (h : Heap) (a v : Option Nat) : Heap × Option Nat :=
  match a, v with
  | none, _ => (h, v)
  | some _, none => (h, a)
  | some pa, some pv =>
    let x := heapGet h pa
    let y := heapGet h pv
    let al := heapAlloc h (x.1 + y.1, x.2 + y.2)
    (al.1, some al.2)

/-- `func (a *vec) Negate() *vec` — a nil receiver yields a fresh zero
cell; otherwise the receiver cell itself is overwritten with its
negation and the same pointer is returned. -/
def vecNegate (h : Heap) (a : Option Nat) : Heap × Nat :=
  match a with
  | none =>
    let al := heapAlloc h (0, 0)
    (al.1, al.2)
  | some pa =>
    let x := heapGet h pa
    (heapSet h pa (x.1 * -1, x.2 * -1), pa)

/-- `func (a *vec) Multiplay(x int) *vec` — no nil check: a nil receiver
crashes (`none`); otherwise the receiver cell is scaled in place and the
same pointer returned. -/
def vecMultiplay (h : Heap) (a : Option Nat) (x : Int) : Option (Heap × Nat) :=
  match a with
  | none => none
  | some pa =>
    let v := heapGet h pa
    some (heapSet h pa (v.1 * x, v.2 * x), pa)

/-! ## Configuration constants -/

def K : Nat := 5

def Window : Nat := 100

def LocalThreshold : Nat := 1

def GlobalThreshold : Nat := 1

/-! ## Pattern identity -/

/-- Modelled from the spec: `common.Uint32ToBytes` (the `common` package
is code of this repository that is not among the given sources) encodes
a 32-bit value as its 4 bytes in big-endian order. -/
def uint32ToBytes (i : Nat) : List Nat :=
  [i / 2 ^ 24 % 256, i / 2 ^ 16 % 256, i / 2 ^ 8 % 256, i % 256]

def fnvPrime : Nat := 16777619

def fnvOffset : Nat := 2166136261

/-- `hash/fnv` `New32` is FNV-1: per byte, multiply by the prime
(mod `2^32`) and then XOR the byte in. -/
def fnv1Write (h : Nat) (bs : List Nat) : Nat :=
  bs.foldl (fun h b => h * fnvPrime % 2 ^ 32 ^^^ b) h

/-- `func getId(bids []mesh.BlockID) uint32`: sort the ids ascending,
then feed each id (truncated to `uint32`) through FNV-1 (32 bit). -/
def getId (bids : List Nat) : Nat :=
  let sorted := List.insertionSort (· ≤ ·) bids
  sorted.foldl (fun h bid => fnv1Write h (uint32ToBytes (bid % 2 ^ 32))) fnvOffset

/-- FNV-1a applies XOR before the multiply; the spec names this variant. -/
def fnv1aWrite (h : Nat) (bs : List Nat) : Nat :=
  bs.foldl (fun h b => (h ^^^ b) * fnvPrime % 2 ^ 32) h

/-- The digest exactly as the spec words it: sort ids ascending as
unsigned 32-bit integers, fold their big-endian 4-byte encodings through
FNV-1a-32. -/
def patternIdSpecFnv1a (bids : List Nat) : Nat :=
  (List.insertionSort (· ≤ ·) (bids.map (· % 2 ^ 32))).foldl
    (fun h bid => fnv1aWrite h (uint32ToBytes bid)) fnvOffset

/-- The spec digest amended on the one point the code forces: the fold
is FNV-1-32 (multiply, then XOR), not FNV-1a-32. -/
def patternIdSpecFnv1 (bids : List Nat) : Nat :=
  (List.insertionSort (· ≤ ·) (bids.map (· % 2 ^ 32))).foldl
    (fun h bid => fnv1Write h (uint32ToBytes bid)) fnvOffset

/-! ## Data model

`mesh.Block` is supplied by the block-store collaborator; the `mesh`
package is code of this repository that is not among the given sources.
Modelled from the spec: a block has a unique id, a layer number, view
edges (ancestor references) and explicit vote edges (`BlockVotes` on the
raw `mesh.Block` is the list of voted block ids).  Layer numbers and ids
are plain naturals (the spec fixes no width for `mesh.LayerID`). -/

structure Block where
  id : Nat
  layerId : Nat
  blockVotes : List Nat
  viewEdges : List Nat
deriving DecidableEq

structure votingPattern where
  id : Nat
  layerId : Nat
deriving DecidableEq

/-- `ninjaBlock` embeds the raw block and adds the derived per-layer
explicit voting patterns (`BlockVotes map[mesh.LayerID]*votingPattern`,
shadowing the raw field of the same name). -/
structure ninjaBlock where
  block : Block
  blockVotes : List (Nat × votingPattern)
deriving DecidableEq

structure ninjaTortoise where
  LayerSize : Nat
  heap : Heap
  pBase : votingPattern
  blocks : List (Nat × ninjaBlock)
  tEffective : List (Nat × Option votingPattern)
  tCorrect : List (Nat × List (votingPattern × Option Nat))
  layerBlocks : List (Nat × List Nat)
  tExplicit : List (Nat × List (Nat × votingPattern))
  tGood : List (Nat × votingPattern)
  tSupport : List (votingPattern × Int)
  tPattern : List (votingPattern × List Nat)
  tVote : List (votingPattern × List (Nat × Option Nat))
  tTally : List (votingPattern × List (Nat × Option Nat))
  tComplete : List votingPattern
  tEffectiveToBlocks : List (votingPattern × List Nat)
  tPatSupport : List (votingPattern × List (Nat × votingPattern))
deriving DecidableEq

/-- Execution state: the engine plus a poison flag modelling a Go panic.
Once `err` is set every subsequent operation is a no-op, the way a panic
aborts the remainder of an `UpdateTables` call while keeping all
mutations made before it. -/
structure ExecSt where
  ni : ninjaTortoise
  err : Option String
deriving DecidableEq

/-- Modelled from the spec: the engine constructor is not among the given
sources.  Spec §3: every table starts empty and `pBase` is a sentinel
pattern at layer 0. -/
def initTortoise (layerSize : Nat) : ninjaTortoise :=
  { LayerSize := layerSize, heap := initHeap, pBase := { id := 0, layerId := 0 },
    blocks := [], tEffective := [], tCorrect := [], layerBlocks := [],
    tExplicit := [], tGood := [], tSupport := [], tPattern := [], tVote := [],
    tTally := [], tComplete := [], tEffectiveToBlocks := [], tPatSupport := [] }

def initSt (layerSize : Nat) : ExecSt := { ni := initTortoise layerSize, err := none }

/-! ## processBlock -/

/-- First loop of `processBlock`: group the raw vote edges by the target
block layer.  An unknown target is `panic("unknown block!")`, before any
engine field has been touched. -/
def buildPatterns (blocks : List (Nat × ninjaBlock)) :
    List Nat → List (Nat × List Nat) → Option (List (Nat × List Nat))
  | [], acc => some acc
  | bid :: rest, acc =>
    match goFind blocks bid with
    | none => none
    | some b =>
      buildPatterns blocks rest
        (goInsert acc b.block.layerId (((goFind acc b.block.layerId).getD []) ++ [bid]))

/-- Body of the `for layerId, v := range patterns` loop of
`processBlock`: register the candidate pattern, recreate `nb.BlockVotes`
with the single current entry, and track the highest-layer pattern.
`getId` sorts its argument slice in place, so `tPattern` stores the
sorted ids. -/
def processPatternsStep
    (acc : ninjaTortoise × List (Nat × votingPattern) × Option votingPattern)
    (kv : Nat × List Nat) :
    ninjaTortoise × List (Nat × votingPattern) × Option votingPattern :=
  let vp : votingPattern := { id := getId kv.2, layerId := kv.1 }
  let ni := { acc.1 with tPattern := goInsert acc.1.tPattern vp (List.insertionSort (· ≤ ·) kv.2) }
  let nbVotes := goInsert ([] : List (Nat × votingPattern)) kv.1 vp
  let effective :=
    match acc.2.2 with
    | none => some vp
    | some e => if e.layerId < kv.1 then some vp else some e
  (ni, nbVotes, effective)

/-- `func (ni *ninjaTortoise) processBlock(b *mesh.Block) *ninjaBlock`.
`ordP` is the iteration order of the `for layerId, v := range patterns`
loop (Go randomises map iteration).  Note that the loop body recreates
`nb.BlockVotes` on every iteration, and that `getId` sorts its argument
slice in place, so `tPattern` stores the sorted ids. -/
def processBlock (ordP : List (Nat × List Nat) → List (Nat × List Nat))
    (s : ExecSt) (b : Block) : ExecSt × Option ninjaBlock :=
  match s.err with
  | some _ => (s, none)
  | none =>
    match buildPatterns s.ni.blocks b.blockVotes [] with
    | none => ({ s with err := some "unknown block!" }, none)
    | some patterns =>
      let folded := (ordP patterns).foldl processPatternsStep (s.ni, [], none)
      let nb : ninjaBlock := { block := b, blockVotes := folded.2.1 }
      let ni := { folded.1 with tEffective := goInsert folded.1.tEffective b.id folded.2.2 }
      let ni :=
        match folded.2.2 with
        | none => ni
        | some eff =>
          let grouped := ((goFind ni.tEffectiveToBlocks eff).getD []) ++ [b.id]
          { ni with tEffectiveToBlocks := goInsert ni.tEffectiveToBlocks eff grouped }
      let ni := { ni with blocks := goInsert ni.blocks b.id nb }
      ({ s with ni := ni }, some nb)

/-! ## forBlockInView -/

/-- Enqueue the unvisited children of the current block; the source only
descends while the current block is strictly above the cutoff layer.
The accumulator is the pair (seen set, stack). -/
def pushChildren (blk : ninjaBlock) (layer : Nat) (acc : List Nat × List Nat) :
    List Nat × List Nat :=
  blk.block.viewEdges.foldl
    (fun acc c =>
      if blk.block.layerId > layer then
        if c ∈ acc.1 then acc else (acc.1 ++ [c], acc.2 ++ [c])
      else acc)
    acc

/-- The worklist loop of `forBlockInView`.  Fuel-indexed; `bfsFuel` below
always suffices (each iteration pops one element, and every push either
consumes a seed or enlarges the seen set, which only holds view-edge
targets).  Looking up an unknown id crashes, as the source dereferences
the nil block after logging. -/
def bfsLoop (blocks : List (Nat × ninjaBlock)) (layer : Nat)
    (visit : σ → ninjaBlock → σ) :
    Nat → List Nat → List Nat → List (Nat × Nat) → σ →
    Except String (List (Nat × Nat) × σ)
  | 0, _, _, _, _ => .error "out of fuel"
  | _ + 1, [], _, counter, s => .ok (counter, s)
  | fuel + 1, a :: rest, seen, counter, s =>
    match goFind blocks a with
    | none => .error "nil block dereference"
    | some block =>
      let counter2 := goInsert counter block.block.layerId
        ((goFind counter block.block.layerId).getD 0 + 1)
      let s2 := visit s block
      let sp := pushChildren block layer (seen, rest)
      bfsLoop blocks layer visit fuel sp.2 sp.1 counter2 s2

def bfsFuel (blocks : List (Nat × ninjaBlock)) (seeds : List Nat) : Nat :=
  seeds.length + (blocks.map (fun kv => kv.2.block.viewEdges.length)).sum + 1

/-- `func (ni *ninjaTortoise) forBlockInView(blocks, layer, foo)`: seeds
are pushed to the front in order (so popped in reverse), children are
pushed to the back; returns the per-layer visit counter. -/
def forBlockInView (blocks : List (Nat × ninjaBlock)) (seeds : List Nat) (layer : Nat)
    (visit : σ → ninjaBlock → σ) (s : σ) : Except String (List (Nat × Nat) × σ) :=
  bfsLoop blocks layer visit (bfsFuel blocks seeds) seeds.reverse [] [] s

/-! ## globalOpinion -/

/-- Outcome of a Go call that returns `(value, error)` but may also
panic. -/
inductive Res (α : Type) where
  | ok (a : α)
  | goerr
  | crash (msg : String)
deriving DecidableEq

/-- `func (ni *ninjaTortoise) globalOpinion(p, x) (*vec, error)`.
Missing tally is the error return; a stored nil tally pointer would be a
nil dereference.  The returned pointer is one of the three shared
package constants. -/
def globalOpinion (ni : ninjaTortoise) (p : votingPattern) (x : ninjaBlock) : Res Nat :=
  match goFind2 ni.tTally p x.block.id with
  | none => .goerr
  | some none => .crash "nil tally dereference"
  | some (some vp) =>
    let v := heapGet ni.heap vp
    let delta := p.layerId - x.block.layerId
    let threshold : Int := (GlobalThreshold * delta % 2 ^ 32 * ni.LayerSize % 2 ^ 32 : Nat)
    if v.1 > threshold then .ok supportPtr
    else if v.2 > threshold then .ok againstPtr
    else .ok abstainPtr

/-! ## updateCorrectionVectors -/

/-- `func (ni *ninjaTortoise) updateCorrectionVectors(p votingPattern)`.
`Tcorrect[x][p] = Tvote[p][x].Negate()` — note `Negate` writes through
the stored pointer. -/
def updateCorrectionVectors (ni0 : ninjaTortoise) (p : votingPattern) : ninjaTortoise :=
  ((goFind ni0.tEffectiveToBlocks p).getD []).foldl
    (fun ni b =>
      ((goFind ni.tPattern p).getD []).foldl
        (fun ni x =>
          match goFind2 ni.tExplicit p.layerId b with
          | none => ni
          | some _ =>
            let inner := (goFind ni.tCorrect x).getD []
            let ng := vecNegate ni.heap (Option.join (goFind2 ni.tVote p x))
            { ni with heap := ng.1,
                      tCorrect := goInsert ni.tCorrect x (goInsert inner p (some ng.2)) })
        ni)
    ni0

/-! ## updatePatternTally -/

/-- The closure `foo` of `updatePatternTally`: over pattern `p`'s view,
accumulate the correction vectors of the blocks whose effective pattern
is `g` and count them.  The dereference `*ni.tEffective[b.ID()]` is a
nil-pointer crash for a voteless block.  The visitor state is
(crash, heap, corr, effCount); the engine tables are read-only here. -/
def patternTallyVisitor (ni : ninjaTortoise) (g : votingPattern)
    (st : Option String × Heap × Option Nat × Int) (b : ninjaBlock) :
    Option String × Heap × Option Nat × Int :=
  match st.1 with
  | some _ => st
  | none =>
    match goFind ni.tEffective b.block.id with
    | none => (some "nil effective dereference", st.2)
    | some none => (some "nil effective dereference", st.2)
    | some (some eff) =>
      if eff = g then
        let ad := vecAdd st.2.1 st.2.2.1 (Option.join (goFind2 ni.tCorrect b.block.id g))
        (none, ad.1, ad.2, st.2.2.2 + 1)
      else st

/-- Per-block body of the rebase loop of `updatePatternTally`:
`tTally[p][b] += tVote[g][b] * effCount + corr` for every block with a
known `tVote[g][b]`; `Multiplay` scales the stored vote cell in place,
and the assignment is a nil-map write when `tTally[p]` was never
created. -/
def tallyApplyBlock (g p : votingPattern) (corr : Option Nat) (effCount : Int)
    (t : ExecSt) (b : Nat) : ExecSt :=
  match t.err with
  | some _ => t
  | none =>
    match goFind2 t.ni.tVote g b with
    | none => t
    | some v =>
      match vecMultiplay t.ni.heap v effCount with
      | none => { t with err := some "nil vote dereference" }
      | some mres =>
        let ad := vecAdd mres.1 (some mres.2) corr
        let tl := vecAdd ad.1 (Option.join (goFind2 t.ni.tTally p b)) ad.2
        match goFind t.ni.tTally p with
        | none =>
          let ni2 := { t.ni with heap := tl.1 }
          { ni := ni2, err := some "assignment to entry in nil map" }
        | some inner =>
          let tt2 := goInsert t.ni.tTally p (goInsert inner b tl.2)
          let ni2 := { t.ni with heap := tl.1, tTally := tt2 }
          { t with ni := ni2 }

/-- Per-layer body of the rebase loop of `updatePatternTally`. -/
def tallyApplyLayer (g p : votingPattern) (corr : Option Nat) (effCount : Int)
    (t : ExecSt) (i : Nat) : ExecSt :=
  match goFind t.ni.layerBlocks i with
  | none => t
  | some layer => layer.foldl (tallyApplyBlock g p corr effCount) t

/-- `func (ni *ninjaTortoise) updatePatternTally(pBase, g, p)`.  The
`pBase` parameter is unused by the source (the loops read `ni.pBase`),
and the local stack of blocks built at the top is dead code; both are
dropped here. -/
def updatePatternTally (s : ExecSt) (g p : votingPattern) : ExecSt :=
  match s.err with
  | some _ => s
  | none =>
    let ni := s.ni
    let al := heapAlloc ni.heap (0, 0)
    match forBlockInView ni.blocks ((goFind ni.tPattern p).getD []) g.layerId
        (patternTallyVisitor ni g) (none, al.1, some al.2, 0) with
    | .error msg => { s with err := some msg }
    | .ok (_, vst) =>
      match vst.1 with
      | some msg => { ni := { ni with heap := vst.2.1 }, err := some msg }
      | none =>
        let corr := vst.2.2.1
        let effCount := vst.2.2.2
        let ni := { ni with heap := vst.2.1 }
        (List.range' ni.pBase.layerId (g.layerId + 1 - ni.pBase.layerId)).foldl
          (tallyApplyLayer g p corr effCount) { s with ni := ni }

/-! ## findMinimalGoodLayer -/

/-- Per-block body of the vote-registration loop at scan layer `j`.  An
explicit vote recreates the whole `tExplicit[j]` map whenever the
current block has no entry yet, and bumps `tSupport` twice (once in the
explicit branch and once in the trailing `if found`).  An implicit vote
dereferences `*eff`, a nil pointer for a voteless block. -/
def voteBlockStep (j : Nat)
    (acc : ninjaTortoise × List votingPattern × Option String) (block : ninjaBlock) :
    ninjaTortoise × List votingPattern × Option String :=
  match acc.2.2 with
  | some _ => acc
  | none =>
    let ni := acc.1
    let sUpdated := acc.2.1
    match goFind block.blockVotes j with
    | some p =>
      let layerMap :=
        match goFind2 ni.tExplicit j block.block.id with
        | some _ => (goFind ni.tExplicit j).getD []
        | none => ([] : List (Nat × votingPattern))
      let ni := { ni with
        tExplicit := goInsert ni.tExplicit j (goInsert layerMap block.block.id p) }
      let ni := { ni with tSupport := goInsert ni.tSupport p ((goFind ni.tSupport p).getD 0 + 1) }
      let sUpdated := if p ∈ sUpdated then sUpdated else sUpdated ++ [p]
      let ni := { ni with tSupport := goInsert ni.tSupport p ((goFind ni.tSupport p).getD 0 + 1) }
      let sUpdated := if p ∈ sUpdated then sUpdated else sUpdated ++ [p]
      (ni, sUpdated, none)
    | none =>
      match goFind ni.tEffective block.block.id with
      | none => (ni, sUpdated, none)
      | some none => (ni, sUpdated, some "nil effective dereference")
      | some (some eff) =>
        match goFind2 ni.tPatSupport eff j with
        | none => (ni, sUpdated, none)
        | some p =>
          let ni := { ni with tSupport := goInsert ni.tSupport p ((goFind ni.tSupport p).getD 0 + 1) }
          (ni, (if p ∈ sUpdated then sUpdated else sUpdated ++ [p]), none)

/-- Majority check for an updated pattern: the source compares
`float64(tSupport[p])` against
`0.5 * float64(LayerID(LayerSize*uint32(i)) - p.Layer())`; both sides
are exact in `float64` at these magnitudes, so this is the integer
comparison `2 * support > LayerSize * i % 2 ^ 32 - p.Layer` (the
subtraction over the layer type, taken over ℤ). -/
def goodCheckStep (i j : Nat) (acc : ninjaTortoise × Nat) (p : votingPattern) :
    ninjaTortoise × Nat :=
  let ni := acc.1
  let notAlready : Bool :=
    match goFind ni.tGood j with
    | none => true
    | some jGood => decide (jGood ≠ p)
  let support : Int := (goFind ni.tSupport p).getD 0
  let thr : Int := ((ni.LayerSize * i % 2 ^ 32 : Nat) : Int) - (p.layerId : Int)
  if notAlready = true ∧ 2 * support > thr then
    let ni := { ni with tGood := goInsert ni.tGood p.layerId p }
    if p.layerId < i then (ni, p.layerId) else (ni, acc.2)
  else acc

/-- Body for one scanned layer `j`: register the votes of the new blocks
and then run the good-pattern check over the updated patterns. -/
def scanLayerStep (ordS : List votingPattern → List votingPattern)
    (i : Nat) (b : List ninjaBlock)
    (acc : ninjaTortoise × Nat × Option String) (j : Nat) :
    ninjaTortoise × Nat × Option String :=
  match acc.2.2 with
  | some _ => acc
  | none =>
    let vb := b.foldl (voteBlockStep j) (acc.1, [], none)
    match vb.2.2 with
    | some msg => (vb.1, acc.2.1, some msg)
    | none =>
      let gc := (ordS vb.2.1).foldl (goodCheckStep i j) (vb.1, acc.2.1)
      (gc.1, gc.2, none)

/-- `func (ni *ninjaTortoise) findMinimalGoodLayer(i, b) mesh.LayerID`.
`ordS` is the iteration order of the `for p := range sUpdated` loop. -/
def findMinimalGoodLayer (ordS : List votingPattern → List votingPattern)
    (s : ExecSt) (i : Nat) (b : List ninjaBlock) : ExecSt × Nat :=
  match s.err with
  | some _ => (s, s.ni.pBase.layerId)
  | none =>
    let ni := s.ni
    let j0 := if i < Window then ni.pBase.layerId + 1
              else max (ni.pBase.layerId + 1) (i - Window)
    let res := (List.range' j0 (i - j0)).foldl (scanLayerStep ordS i b)
      (ni, ni.pBase.layerId, none)
    ({ ni := res.1, err := res.2.2 }, res.2.1)

/-! ## addPatternVote and sumNodesInView -/

/-- `func (ni *ninjaTortoise) addPatternVote(p) func(b *ninjaBlock)`. -/
def addPatternVote (p : votingPattern) (ni : ninjaTortoise) (b : ninjaBlock) : ninjaTortoise :=
  let exp := goFind2 ni.tExplicit p.layerId b.block.id
  let v : Vec :=
    match exp with
    | some e => if p = e then (1, 0) else (0, 1)
    | none => (0, 0)
  let al := heapAlloc ni.heap v
  let inner := (goFind ni.tTally p).getD []
  let ad := vecAdd al.1 (Option.join (goFind2 ni.tTally p b.block.id)) (some al.2)
  { ni with heap := ad.1, tTally := goInsert ni.tTally p (goInsert inner b.block.id ad.2) }

/-- `func sumNodesInView(layerViewCounter, i, p) *vec` — sums the counter
over `[i, p)` and returns `Against.Multiplay(sum)`, scaling the shared
`Against` constant in place. -/
def sumNodesInView (h : Heap) (layerViewCounter : List (Nat × Nat)) (i p : Nat) :
    Heap × Nat :=
  let sum : Nat := ((List.range' i (p - i)).map
    (fun k => (goFind layerViewCounter k).getD 0)).sum
  (vecMultiplay h (some againstPtr) (sum : Int)).getD (h, againstPtr)

/-! ## UpdateTables -/

/-- First half of the per-block opinion body: if `bid` has no tally in
`p`, charge the out-of-view default `sumNodesInView` (a nil-map write
when `tTally[p]` was never created). -/
def tallyDefaultFill (p : votingPattern) (layerViewCounter : List (Nat × Nat)) (i : Nat)
    (t : ExecSt) (bid : Nat) : ExecSt :=
  match goFind2 t.ni.tTally p bid with
  | some _ => t
  | none =>
    let sv := sumNodesInView t.ni.heap layerViewCounter i p.layerId
    match goFind t.ni.tTally p with
    | none =>
      let ni2 := { t.ni with heap := sv.1 }
      { ni := ni2, err := some "assignment to entry in nil map" }
    | some inner =>
      let tt2 := goInsert t.ni.tTally p (goInsert inner bid (some sv.2))
      let ni2 := { t.ni with heap := sv.1, tTally := tt2 }
      { t with ni := ni2 }

/-- Per-block body of the opinion-derivation pass over layer `i` for the
good pattern `p`: fill a missing tally with the out-of-view default,
then derive and store the global opinion, building the `bids` list; a
missing opinion (missing tally) clears the flag. -/
def tallyBlockOpinion (p : votingPattern) (layerViewCounter : List (Nat × Nat)) (i : Nat)
    (acc : ExecSt × List Nat × Bool) (bid : Nat) : ExecSt × List Nat × Bool :=
  match acc.1.err with
  | some _ => acc
  | none =>
    let step1 : ExecSt := tallyDefaultFill p layerViewCounter i acc.1 bid
    match step1.err with
    | some _ => (step1, acc.2)
    | none =>
      match goFind step1.ni.blocks bid with
      | none => ({ step1 with err := some "nil block dereference" }, acc.2)
      | some b =>
        match globalOpinion step1.ni p b with
        | .crash msg => ({ step1 with err := some msg }, acc.2)
        | .goerr => (step1, acc.2.1, false)
        | .ok vote =>
          let inner := (goFind step1.ni.tVote p).getD []
          ({ step1 with ni := { step1.ni with
              tVote := goInsert step1.ni.tVote p (goInsert inner b.block.id (some vote)) } },
           acc.2.1 ++ [bid], acc.2.2)

/-- Per-layer body of the opinion-derivation pass: run the per-block
body over the layer and then record `tPatSupport[p][i]`. -/
def opinionLayerStep (p : votingPattern) (layerViewCounter : List (Nat × Nat))
    (acc : ExecSt × Bool) (i : Nat) : ExecSt × Bool :=
  match acc.1.err with
  | some _ => acc
  | none =>
    match goFind acc.1.ni.layerBlocks i with
    | none => acc
    | some layer =>
      let r := layer.foldl (tallyBlockOpinion p layerViewCounter i) (acc.1, [], acc.2)
      match r.1.err with
      | some _ => (r.1, r.2.2)
      | none =>
        let ni := r.1.ni
        let vp : votingPattern := { id := getId r.2.1, layerId := i }
        let inner := (goFind ni.tPatSupport p).getD []
        ({ r.1 with ni := { ni with
            tPatSupport := goInsert ni.tPatSupport p (goInsert inner i vp) } }, r.2.2)

/-- Body of the seeding loop in `UpdateTables`: copy one entry of
`tTally[pBase]` into `tTally[p]` (creating the inner map if missing). -/
def seedTallyStep (p : votingPattern) (ni : ninjaTortoise) (kv : Nat × Option Nat) :
    ninjaTortoise :=
  let inner := (goFind ni.tTally p).getD []
  { ni with tTally := goInsert ni.tTally p (goInsert inner kv.1 kv.2) }

/-- Body of the replay loop in `UpdateTables`: fold the good pattern of
layer `k`, when there is one, into `p`'s tally. -/
def replayGoodStep (p : votingPattern) (t : ExecSt) (k : Nat) : ExecSt :=
  match t.err with
  | some _ => t
  | none =>
    match goFind t.ni.tGood k with
    | none => t
    | some gK => updatePatternTally t gK p

/-- Body of the `for j := l; j < i; j++` loop of `UpdateTables`: if layer
`j` has a good pattern, seed its tally from `pBase`, replay the
intermediate good patterns, add the pattern votes over its view, update
correction vectors, derive the global opinion for every block between
`pBase` and `j`, and finally mark completeness and advance `pBase`. -/
def goodLayerStep (s : ExecSt) (j : Nat) : ExecSt :=
  match s.err with
  | some _ => s
  | none =>
    match goFind s.ni.tGood j with
    | none => s
    | some p =>
      let ni := s.ni
      let seeded := ((goFind ni.tTally ni.pBase).getD []).foldl (seedTallyStep p) ni
      let s1 := { s with ni := seeded }
      let s2 := (List.range' s1.ni.pBase.layerId (j - s1.ni.pBase.layerId)).foldl
        (replayGoodStep p) s1
      match s2.err with
      | some _ => s2
      | none =>
        match forBlockInView s2.ni.blocks ((goFind s2.ni.tPattern p).getD [])
            s2.ni.pBase.layerId (addPatternVote p) s2.ni with
        | .error msg => { s2 with err := some msg }
        | .ok bfres =>
          let ni3 := updateCorrectionVectors bfres.2 p
          let s3 := { s2 with ni := ni3 }
          let ol := (List.range' s3.ni.pBase.layerId (j + 1 - s3.ni.pBase.layerId)).foldl
            (opinionLayerStep p bfres.1) (s3, true)
          match ol.1.err with
          | some _ => ol.1
          | none =>
            if ol.2 = true ∧ p ∉ ol.1.ni.tComplete then
              { ol.1 with ni := { ol.1.ni with
                  tComplete := ol.1.ni.tComplete ++ [p], pBase := p } }
            else ol.1

/-- Per-block body of the batch-intake loop of `UpdateTables`: process
the block, then append its id to `layerBlocks[i]`. -/
def processBatchStep (ordP : List (Nat × List Nat) → List (Nat × List Nat)) (i : Nat)
    (acc : ExecSt × List ninjaBlock) (block : Block) : ExecSt × List ninjaBlock :=
  let pb := processBlock ordP acc.1 block
  let bs := match pb.2 with | none => acc.2 | some nb => acc.2 ++ [nb]
  match pb.1.err with
  | some _ => (pb.1, bs)
  | none =>
    let lb := (goFind pb.1.ni.layerBlocks i).getD []
    ({ pb.1 with ni := { pb.1.ni with
        layerBlocks := goInsert pb.1.ni.layerBlocks i (lb ++ [block.id]) } }, bs)

/-- `func (ni *ninjaTortoise) UpdateTables(B []*mesh.Block, i mesh.LayerID) mesh.LayerID`. -/
def UpdateTables (ordP : List (Nat × List Nat) → List (Nat × List Nat))
    (ordS : List votingPattern → List votingPattern)
    (s : ExecSt) (B : List Block) (i : Nat) : ExecSt × Nat :=
  let pb := B.foldl (processBatchStep ordP i) (s, [])
  if i = 0 then (pb.1, 0)
  else
    let fm := findMinimalGoodLayer ordS pb.1 i pb.2
    let s2 := (List.range' fm.2 (i - fm.2)).foldl goodLayerStep fm.1
    (s2, s2.ni.pBase.layerId)

end NT

namespace NT

/-! ## Concrete executions

Two small runs used throughout the claim theorems.  `ordId` fixes both
map-iteration oracles to the stored (insertion) order; every map the
oracles see in these runs has at most one entry, so the choice is
immaterial there. -/

def ordId {α : Type} : List α → List α := id

/-- Trace 1 (`LayerSize = 1`): genesis block `A`, then `B` voting for and
viewing `A`, then `C` voting for and viewing `B`. -/
def blkA : Block := { id := 10, layerId := 0, blockVotes := [], viewEdges := [] }

def blkB : Block := { id := 20, layerId := 1, blockVotes := [10], viewEdges := [10] }

def blkC : Block := { id := 30, layerId := 2, blockVotes := [20], viewEdges := [20] }

def run1 : ExecSt × Nat := UpdateTables ordId ordId (initSt 1) [blkA] 0

def run2 : ExecSt × Nat := UpdateTables ordId ordId run1.1 [blkB] 1

def run3 : ExecSt × Nat := UpdateTables ordId ordId run2.1 [blkC] 2

/-- The pattern `{B}` in layer 1 that `C` votes for. -/
def patB : votingPattern := { id := getId [20], layerId := 1 }

/-- Trace 2 (`LayerSize = 2`): two genesis blocks, a full layer 1 voting
for layer 0, a full layer 2 voting for the pattern `{B1}`, then layer 3
voting for the pattern `{C1}` (one or two blocks). -/
def blkA1 : Block := { id := 10, layerId := 0, blockVotes := [], viewEdges := [] }

def blkA2 : Block := { id := 11, layerId := 0, blockVotes := [], viewEdges := [] }

def blkB1 : Block := { id := 20, layerId := 1, blockVotes := [10, 11], viewEdges := [10, 11] }

def blkB2 : Block := { id := 21, layerId := 1, blockVotes := [10, 11], viewEdges := [10, 11] }

def blkC1 : Block := { id := 30, layerId := 2, blockVotes := [20], viewEdges := [20, 21] }

def blkC2 : Block := { id := 31, layerId := 2, blockVotes := [20], viewEdges := [20, 21] }

def blkD1 : Block := { id := 40, layerId := 3, blockVotes := [30], viewEdges := [30, 31] }

def blkD2 : Block := { id := 41, layerId := 3, blockVotes := [30], viewEdges := [30, 31] }

def runW1 : ExecSt × Nat := UpdateTables ordId ordId (initSt 2) [blkA1, blkA2] 0

def runW2 : ExecSt × Nat := UpdateTables ordId ordId runW1.1 [blkB1, blkB2] 1

def runW3 : ExecSt × Nat := UpdateTables ordId ordId runW2.1 [blkC1, blkC2] 2

def runW4 : ExecSt × Nat := UpdateTables ordId ordId runW3.1 [blkD1] 3

def runW4d : ExecSt × Nat := UpdateTables ordId ordId runW3.1 [blkD1, blkD2] 3

/-- The pattern `{C1}` in layer 2 that the layer-3 blocks vote for. -/
def patC : votingPattern := { id := getId [30], layerId := 2 }

end NT

namespace NT

/-! ## Further concrete inputs used by individual claims -/

/-- A block voting for ancestors in two distinct layers (layer 0 block
`10` and layer 1 block `20`, both known after `run2`). -/
def blkE : Block := { id := 60, layerId := 2, blockVotes := [10, 20], viewEdges := [10, 20] }

def blkF1 : Block := { id := 50, layerId := 1, blockVotes := [], viewEdges := [] }

/-- A block whose vote edge names the never-inserted id `999`. -/
def blkF2 : Block := { id := 51, layerId := 1, blockVotes := [999], viewEdges := [] }

def runF : ExecSt × Nat := UpdateTables ordId ordId (initSt 1) [blkF1, blkF2] 1

/-- A genesis-layer call made after the frontier has advanced. -/
def run4z : ExecSt × Nat := UpdateTables ordId ordId run3.1 [] 0

/-! ## Claim theorems (concrete divergences) -/

/-- **C1** (code bug).  In the four-call trace ending with `runW4`
(`LayerSize = 2`, current layer `i = 3`), the single layer-3 block votes
explicitly for the pattern `patC` of layer 2, whose accumulated support
becomes 2.  The claim's bound `0.5 × LayerSize × (i − p.Layer) = 1` is
exceeded (`2 > 1`, i.e. `2·2 > 2·(3−2)`), so the claim requires
`tGood[2] = patC`; but the code compares support against
`0.5 × (LayerSize × i − p.Layer) = 2`, which is not exceeded, and
records nothing for layer 2. -/
theorem c1_good_threshold_divergence :
    runW4.1.err = none ∧
    goFind runW4.1.ni.tSupport patC = some 2 ∧
    runW4.1.ni.LayerSize = 2 ∧ patC.layerId = 2 ∧
    2 * 2 > (2 : Int) * (3 - 2) ∧
    goFind runW4.1.ni.tGood 2 = none := by decide

/-- **C2** (code bug).  In the three-call trace ending with `run3`, the
good pattern `patB` of layer 1 is inserted into `tComplete` and becomes
`pBase` although the opinion-derivation pass stored the Abstain opinion
for block `10` (the stored pointer is the shared `Abstain` constant,
whose cell holds `(0, 0)`): completeness is never blocked by an Abstain
opinion, because the tally entry each block is judged by is always
pre-filled before `globalOpinion` runs, so its missing-tally error can
never fire. -/
theorem c2_complete_despite_abstain :
    run3.1.err = none ∧
    run3.1.ni.tComplete = [patB] ∧
    run3.1.ni.pBase = patB ∧
    goFind2 run3.1.ni.tVote patB 10 = some (some abstainPtr) ∧
    heapGet run3.1.ni.heap abstainPtr = (0, 0) := by decide

/-- **C3** (code bug).  `processBlock` recreates `nb.BlockVotes` on every
iteration of the `for layerId, v := range patterns` loop, so the single
surviving entry is decided by Go's randomised map iteration order, which
is not a function of the engine's inputs: iterating the two pattern
groups of `blkE` in the two possible orders yields different stored
states (layer 1 retained vs layer 0 retained).  Two engines fed the
identical call sequence can therefore differ byte-for-byte in derived
state. -/
theorem c3_map_order_dependence :
    (processBlock ordId run2.1 blkE).2.map (fun nb => nb.blockVotes.map Prod.fst)
      = some [1] ∧
    (processBlock (fun l => l.reverse) run2.1 blkE).2.map (fun nb => nb.blockVotes.map Prod.fst)
      = some [0] ∧
    (processBlock ordId run2.1 blkE).1 ≠ (processBlock (fun l => l.reverse) run2.1 blkE).1 := by
  decide

/-- **C4** (counterexample).  Feeding the batch `[blkF1, blkF2]` where
`blkF2` has a vote edge to the never-inserted id `999` makes
`UpdateTables` abort with the panic `unknown block!` — not a
`MissingAncestor(999)` result — and the engine state is *not* unchanged:
`blkF1`, processed earlier in the same call, remains inserted. -/
theorem c4_counterexample :
    goFind (initSt 1).ni.blocks 999 = none ∧
    runF.1.err = some "unknown block!" ∧
    goFind runF.1.ni.blocks 50 = some { block := blkF1, blockVotes := [] } ∧
    runF.1.ni ≠ (initSt 1).ni := by decide

/-- **C5** (code bug).  `Negate` and `Multiplay` write through their
receiver: negating the shared `Support` constant leaves `(-1, 0)` in its
cell, scaling the shared `Against` constant by 2 leaves `(0, 2)`, and in
the reachable trace `runW3` the engine itself (via
`sumNodesInView = Against.Multiplay(sum)` with `sum = 0`) corrupts the
package-level `Against` constant from `(0, 1)` to `(0, 0)`. -/
theorem c5_shared_vector_mutation :
    heapGet initHeap againstPtr = (0, 1) ∧
    heapGet (vecNegate initHeap (some supportPtr)).1 supportPtr = (-1, 0) ∧
    (vecMultiplay initHeap (some againstPtr) 2).map (fun r => heapGet r.1 againstPtr)
      = some (0, 2) ∧
    runW3.1.err = none ∧
    heapGet runW3.1.ni.heap againstPtr = (0, 0) := by decide

/-- **C7** (code bug).  In the trace ending with `runW4d`, the two
layer-3 blocks `40` and `41` each cast one explicit vote for `patC`, so
the claim requires `tSupport[patC] = 2` and both registrations in
`tExplicit[2]`; the code instead increments the support twice per
explicit vote (total 4) and, because `tExplicit[2]` is recreated
whenever the current block has no entry yet, the registration of block
`40` is wiped when block `41` is processed. -/
theorem c7_support_double_count_and_wipe :
    runW4d.1.err = none ∧
    goFind runW4d.1.ni.tSupport patC = some 4 ∧
    goFind2 runW4d.1.ni.tExplicit 2 40 = none ∧
    goFind2 runW4d.1.ni.tExplicit 2 41 = some patC := by decide

/-- **C8** (counterexample).  After `run3` the frontier sits at
`pBase.Layer = 1`, but a subsequent call with layer argument `0` returns
the literal `0 < 1` (the genesis early-return), so the *returned* value
is not `≥` the frontier layer before the call.  (The stored
`pBase.Layer` itself does not decrease; see the amended theorem.) -/
theorem c8_counterexample :
    run3.1.ni.pBase.layerId = 1 ∧ run4z.2 = 0 ∧
    run4z.2 < run3.1.ni.pBase.layerId := by decide

/-- **C9** (counterexample).  `getId` is the FNV-1 digest, not FNV-1a:
already on the singleton list `[1]` the two differ. -/
theorem c9_counterexample :
    getId [1] = 1268118804 ∧ patternIdSpecFnv1a [1] = 1251341186 ∧
    getId [1] ≠ patternIdSpecFnv1a [1] := by decide

end NT

namespace NT

/-! ## General lemmas -/

theorem foldl_preserve {α : Type u} {β : Type v} (P : α → Prop) (f : α → β → α)
    (hstep : ∀ x y, P x → P (f x y)) :
    ∀ (l : List β) (a : α), P a → P (l.foldl f a)
  | [], _, h0 => h0
  | hd :: tl, a, h0 => foldl_preserve P f hstep tl (f a hd) (hstep a hd h0)

theorem foldl_preserve_mem {α : Type u} {β : Type v} (P : α → Prop) (f : α → β → α)
    {l : List β} (hstep : ∀ x y, y ∈ l → P x → P (f x y)) :
    ∀ (l2 : List β), (∀ y ∈ l2, y ∈ l) → ∀ (a : α), P a → P (l2.foldl f a)
  | [], _, _, h0 => h0
  | hd :: tl, hsub, a, h0 =>
    foldl_preserve_mem P f hstep tl (fun y hy => hsub y (List.mem_cons_of_mem hd hy))
      (f a hd) (hstep a hd (hsub hd (List.mem_cons_self hd tl)) h0)

/-! ## C9: pattern-id stability -/

theorem insertionSort_eq_of_perm {l l2 : List Nat} (h : l.Perm l2) :
    List.insertionSort (· ≤ ·) l = List.insertionSort (· ≤ ·) l2 :=
  List.eq_of_perm_of_sorted
    ((List.perm_insertionSort _ l).trans (h.trans (List.perm_insertionSort _ l2).symm))
    (List.sorted_insertionSort _ l) (List.sorted_insertionSort _ l2)

theorem foldl_fnv_mod_eq (l : List Nat) (hl : ∀ x ∈ l, x < 2 ^ 32) (a : Nat) :
    l.foldl (fun h bid => fnv1Write h (uint32ToBytes (bid % 2 ^ 32))) a
      = l.foldl (fun h bid => fnv1Write h (uint32ToBytes bid)) a := by
  induction l generalizing a with
  | nil => simp only [List.foldl_nil]
  | cons x xs ih =>
    simp only [List.foldl_cons]
    rw [Nat.mod_eq_of_lt (hl x (List.mem_cons_self x xs))]
    exact ih (fun y hy => hl y (List.mem_cons_of_mem x hy)) _

/-- **C9** (amended).  `getId` is order-invariant: any permutation of the
ids yields the same value.  Moreover, for ids within 32 bits the value
is exactly the spec's digest with FNV-1a replaced by FNV-1: sort the ids
ascending, fold their big-endian 4-byte encodings through FNV-1-32.
(The code sorts the raw ids and truncates to 32 bits only when hashing,
which coincides with the spec's sort-as-`uint32` for in-range ids.) -/
theorem c9_amended (l l2 : List Nat) (hperm : l.Perm l2) :
    getId l = getId l2 ∧ ((∀ x ∈ l, x < 2 ^ 32) → getId l = patternIdSpecFnv1 l) := by
  constructor
  · unfold getId
    rw [insertionSort_eq_of_perm hperm]
  · intro hl
    unfold getId patternIdSpecFnv1
    have hmap : l.map (· % 2 ^ 32) = l := by
      have : l.map (· % 2 ^ 32) = l.map id :=
        List.map_congr_left (fun x hx => Nat.mod_eq_of_lt (hl x hx))
      simpa using this
    rw [hmap]
    exact foldl_fnv_mod_eq (List.insertionSort (· ≤ ·) l)
      (fun x hx => hl x ((List.perm_insertionSort (· ≤ ·) l).mem_iff.mp hx)) fnvOffset

/-- Witness for `c9_amended` at the concrete permutation `[20, 10]` of
`[10, 20]`. -/
theorem c9_amended_witness :
    getId [20, 10] = getId [10, 20] ∧
      ((∀ x ∈ [20, 10], x < 2 ^ 32) → getId [20, 10] = patternIdSpecFnv1 [20, 10]) :=
  c9_amended [20, 10] [10, 20] (by decide)

/-! ## C10: at most one BlockVotes entry per stored block -/

theorem processPatternsStep_votes_len (acc : ninjaTortoise ×
    List (Nat × votingPattern) × Option votingPattern) (kv : Nat × List Nat) :
    ((processPatternsStep acc kv).2.1).length ≤ 1 := by
  simp [processPatternsStep, goInsert]

/-- **C10** (confirmed).  Whatever block `processBlock` stores and in
whatever iteration order the per-layer groups are visited, the stored
`ninjaBlock`'s `BlockVotes` map holds at most one entry — the map is
recreated on each iteration of the per-layer loop, so only one layer's
candidate pattern is retained. -/
theorem c10_blockvotes_at_most_one (ordP : List (Nat × List Nat) → List (Nat × List Nat))
    (s : ExecSt) (b : Block) :
    Option.elim (processBlock ordP s b).2 True
      (fun nb => nb.blockVotes.length ≤ 1 ∧
        goFind (processBlock ordP s b).1.ni.blocks b.id = some nb) := by
  unfold processBlock
  cases hs : s.err with
  | some msg => simp
  | none =>
    cases hb : buildPatterns s.ni.blocks b.blockVotes [] with
    | none => simp
    | some patterns =>
      simp only [Option.elim]
      constructor
      · exact foldl_preserve (fun acc => acc.2.1.length ≤ 1) processPatternsStep
          (fun x y _ => processPatternsStep_votes_len x y) (ordP patterns)
          (s.ni, [], none) (by simp)
      · cases hfold : ((ordP patterns).foldl processPatternsStep (s.ni, [], none)).2.2 <;>
          simp [goFind_goInsert_self]

end NT

namespace NT

/-! ## C4: behaviour on an unknown vote-edge target -/

theorem buildPatterns_eq_none (blocks : List (Nat × ninjaBlock)) :
    ∀ (votes : List Nat) (acc : List (Nat × List Nat)),
      (∃ v ∈ votes, goFind blocks v = none) → buildPatterns blocks votes acc = none
  | [], _, h => by simp at h
  | v0 :: rest, acc, h => by
    unfold buildPatterns
    cases h0 : goFind blocks v0 with
    | none => rfl
    | some b =>
      rcases h with ⟨v, hv, hnone⟩
      rcases List.mem_cons.mp hv with rfl | hvr
      · exact absurd h0 (by simp [hnone])
      · exact buildPatterns_eq_none blocks rest _ ⟨v, hvr, hnone⟩

theorem processBlock_err_of_missing (ordP : List (Nat × List Nat) → List (Nat × List Nat))
    (s : ExecSt) (b : Block) (hs : s.err = none)
    (hv : ∃ v ∈ b.blockVotes, goFind s.ni.blocks v = none) :
    (processBlock ordP s b).1.err = some "unknown block!" ∧
      (processBlock ordP s b).1.ni = s.ni := by
  unfold processBlock
  rw [hs, buildPatterns_eq_none s.ni.blocks b.blockVotes [] hv]
  exact ⟨rfl, rfl⟩

theorem processPatternsStep_blocks (acc : ninjaTortoise ×
    List (Nat × votingPattern) × Option votingPattern) (kv : Nat × List Nat) :
    (processPatternsStep acc kv).1.blocks = acc.1.blocks := by
  simp [processPatternsStep]

theorem processBlock_blocks_none (ordP : List (Nat × List Nat) → List (Nat × List Nat))
    (s : ExecSt) (b : Block) (v : Nat) (hnone : goFind s.ni.blocks v = none)
    (hne : v ≠ b.id) : goFind (processBlock ordP s b).1.ni.blocks v = none := by
  unfold processBlock
  cases hs : s.err with
  | some m => exact hnone
  | none =>
    cases hb : buildPatterns s.ni.blocks b.blockVotes [] with
    | none => exact hnone
    | some patterns =>
      simp only []
      have hfold : ((ordP patterns).foldl processPatternsStep (s.ni, [], none)).1.blocks
          = s.ni.blocks :=
        foldl_preserve (fun acc => acc.1.blocks = s.ni.blocks) processPatternsStep
          (fun x y hx => (processPatternsStep_blocks x y).trans hx)
          (ordP patterns) (s.ni, [], none) rfl
      cases heff : ((ordP patterns).foldl processPatternsStep (s.ni, [], none)).2.2 <;>
        simp [goFind_goInsert_ne _ _ _ _ (fun h => hne h.symm), hfold, hnone]

theorem processBlock_err_preserved (ordP : List (Nat × List Nat) → List (Nat × List Nat))
    (s : ExecSt) (b : Block) (m : String) (h : s.err = some m) :
    processBlock ordP s b = (s, none) := by
  unfold processBlock
  rw [h]

theorem processBatchStep_err_eq (ordP : List (Nat × List Nat) → List (Nat × List Nat))
    (i : Nat) (acc : ExecSt × List ninjaBlock) (blk : Block) :
    (processBatchStep ordP i acc blk).1.err = (processBlock ordP acc.1 blk).1.err := by
  unfold processBatchStep
  cases h : (processBlock ordP acc.1 blk).1.err <;> simp only [h]

theorem processBlock_err_none_or_unknown
    (ordP : List (Nat × List Nat) → List (Nat × List Nat)) (s : ExecSt) (b : Block)
    (hs : s.err = none) :
    (processBlock ordP s b).1.err = none ∨
      (processBlock ordP s b).1.err = some "unknown block!" := by
  unfold processBlock
  rw [hs]
  cases hb : buildPatterns s.ni.blocks b.blockVotes [] with
  | none => exact Or.inr rfl
  | some patterns => exact Or.inl rfl

theorem processBatchStep_err_preserved (ordP : List (Nat × List Nat) → List (Nat × List Nat))
    (i : Nat) (acc : ExecSt × List ninjaBlock) (blk : Block) (m : String)
    (h : acc.1.err = some m) : (processBatchStep ordP i acc blk).1.err = some m := by
  rw [processBatchStep_err_eq, processBlock_err_preserved ordP acc.1 blk m h]
  exact h

theorem processBatchStep_blocks_none (ordP : List (Nat × List Nat) → List (Nat × List Nat))
    (i : Nat) (acc : ExecSt × List ninjaBlock) (blk : Block) (v : Nat)
    (hnone : goFind acc.1.ni.blocks v = none) (hne : v ≠ blk.id) :
    goFind (processBatchStep ordP i acc blk).1.ni.blocks v = none := by
  unfold processBatchStep
  have := processBlock_blocks_none ordP acc.1 blk v hnone hne
  cases he : (processBlock ordP acc.1 blk).1.err <;> simpa [he] using this

theorem batchFold_err (ordP : List (Nat × List Nat) → List (Nat × List Nat)) (i : Nat) :
    ∀ (B1 : List Block) (blk : Block) (B2 : List Block) (acc : ExecSt × List ninjaBlock),
      (acc.1.err = some "unknown block!" ∨
        (acc.1.err = none ∧ ∃ v ∈ blk.blockVotes,
          goFind acc.1.ni.blocks v = none ∧ ∀ blk1 ∈ B1, v ≠ blk1.id)) →
      ((B1 ++ blk :: B2).foldl (processBatchStep ordP i) acc).1.err = some "unknown block!"
  | [], blk, B2, acc, h => by
    rw [List.nil_append, List.foldl_cons]
    apply foldl_preserve (fun t : ExecSt × List ninjaBlock => t.1.err = some "unknown block!")
      (processBatchStep ordP i)
      (fun x y hx => processBatchStep_err_preserved ordP i x y _ hx) B2
    rcases h with h | ⟨hn, v, hv, hnone, _⟩
    · exact processBatchStep_err_preserved ordP i acc blk _ h
    · have hpb := processBlock_err_of_missing ordP acc.1 blk hn ⟨v, hv, hnone⟩
      rw [processBatchStep_err_eq, hpb.1]
  | b0 :: rest, blk, B2, acc, h => by
    rw [List.cons_append, List.foldl_cons]
    apply batchFold_err ordP i rest blk B2
    rcases h with h | ⟨hn, v, hv, hnone, hids⟩
    · exact Or.inl (processBatchStep_err_preserved ordP i acc b0 _ h)
    · have hvne : v ≠ b0.id := hids b0 (List.mem_cons_self b0 rest)
      have hnone2 := processBatchStep_blocks_none ordP i acc b0 v hnone hvne
      cases he : (processBatchStep ordP i acc b0).1.err with
      | some m =>
        left
        rw [processBatchStep_err_eq] at he
        rcases processBlock_err_none_or_unknown ordP acc.1 b0 hn with h2 | h2
        · rw [h2] at he
          exact Option.noConfusion he
        · exact he.symm.trans h2
      | none =>
        right
        exact ⟨rfl, v, hv, hnone2,
          fun b1 hb1 => hids b1 (List.mem_cons_of_mem b0 hb1)⟩

theorem findMinimalGoodLayer_err_preserved (ordS : List votingPattern → List votingPattern)
    (s : ExecSt) (i : Nat) (b : List ninjaBlock) (m : String) (h : s.err = some m) :
    (findMinimalGoodLayer ordS s i b).1.err = some m := by
  unfold findMinimalGoodLayer
  rw [h]
  exact h

theorem goodLayerStep_err_preserved (s : ExecSt) (j : Nat) (m : String)
    (h : s.err = some m) : (goodLayerStep s j).err = some m := by
  unfold goodLayerStep
  rw [h]
  exact h

/-- **C4** (amended).  Whenever some batch member `blk` has a vote edge
naming an id that is unknown at the moment `blk` is processed — not in
the engine's block table before the call, and not the id of a batch
member processed before `blk` (ids of `blk` itself or of later batch
members do not help: they are not yet inserted) — `UpdateTables` aborts
with the panic `unknown block!` rather than returning normally: the edge
is never silently dropped, but the abort is a panic, not a returned
`MissingAncestor(id)`, and blocks processed earlier in the same call
remain inserted (`c4_counterexample`). -/
theorem c4_amended (ordP : List (Nat × List Nat) → List (Nat × List Nat))
    (ordS : List votingPattern → List votingPattern)
    (s : ExecSt) (B B1 B2 : List Block) (blk : Block) (i : Nat)
    (hs : s.err = none) (hB : B = B1 ++ blk :: B2)
    (h : ∃ v ∈ blk.blockVotes,
      goFind s.ni.blocks v = none ∧ ∀ blk1 ∈ B1, v ≠ blk1.id) :
    (UpdateTables ordP ordS s B i).1.err = some "unknown block!" := by
  subst hB
  unfold UpdateTables
  have hfold := batchFold_err ordP i B1 blk B2 (s, []) (Or.inr ⟨hs, h⟩)
  by_cases hi : i = 0
  · subst hi
    simpa using hfold
  · simp only [hi, if_false]
    have hfm := findMinimalGoodLayer_err_preserved ordS
      ((B1 ++ blk :: B2).foldl (processBatchStep ordP i) (s, [])).1 i
      ((B1 ++ blk :: B2).foldl (processBatchStep ordP i) (s, [])).2 _ hfold
    exact foldl_preserve (fun t => t.err = some "unknown block!") goodLayerStep
      (fun x y hx => goodLayerStep_err_preserved x y _ hx) _ _ hfm

/-- Witness for `c4_amended`: the batch `[blkB, blkA]` where the first
block votes for id `10` — the id of the *later* batch member `blkA`,
not yet inserted when `blkB` is processed — so the call panics. -/
theorem c4_amended_witness :
    (UpdateTables ordId ordId (initSt 1) [blkB, blkA] 1).1.err = some "unknown block!" :=
  c4_amended ordId ordId (initSt 1) [blkB, blkA] [] [blkA] blkB 1 (by decide) rfl
    ⟨10, by decide, by decide, by decide⟩

end NT

namespace NT

/-! ## C8: frontier monotonicity -/

/-- The per-layer pattern entries of a processed block record their own
layer as key. -/
def nbWF (nb : ninjaBlock) : Prop := ∀ kv ∈ nb.blockVotes, kv.2.layerId = kv.1

/-- `tGood[j]` always holds a pattern of layer `j` (spec invariant I4). -/
def tGoodWF (ni : ninjaTortoise) : Prop := ∀ kv ∈ ni.tGood, kv.2.layerId = kv.1

/-- `tPatSupport[p][j]` always holds a pattern of layer `j`. -/
def tPatWF (ni : ninjaTortoise) : Prop :=
  ∀ kv ∈ ni.tPatSupport, ∀ kv2 ∈ kv.2, kv2.2.layerId = kv2.1

theorem mem_goInsert [DecidableEq κ] {m : List (κ × ν)} {k : κ} {v : ν} {x : κ × ν} :
    x ∈ goInsert m k v → x = (k, v) ∨ x ∈ m := by
  induction m with
  | nil => intro hx; simpa [goInsert] using hx
  | cons kv rest ih =>
    intro hx
    obtain ⟨k0, v0⟩ := kv
    by_cases h : k0 = k
    · subst h
      simp only [goInsert, if_pos rfl] at hx
      rcases List.mem_cons.mp hx with h1 | h1
      · exact Or.inl h1
      · exact Or.inr (List.mem_cons_of_mem _ h1)
    · simp only [goInsert, if_neg h] at hx
      rcases List.mem_cons.mp hx with h1 | h1
      · exact Or.inr (by simp [h1])
      · rcases ih h1 with h2 | h2
        · exact Or.inl h2
        · exact Or.inr (List.mem_cons_of_mem _ h2)

theorem goFind_mem [DecidableEq κ] {m : List (κ × ν)} {k : κ} {v : ν} :
    goFind m k = some v → (k, v) ∈ m := by
  induction m with
  | nil => intro h; simp [goFind] at h
  | cons kv rest ih =>
    intro h
    obtain ⟨k0, v0⟩ := kv
    by_cases hk : k0 = k
    · subst hk
      have hv : v0 = v := by simpa [goFind] using h
      subst hv
      exact List.mem_cons_self _ _
    · simp only [goFind, if_neg hk] at h
      exact List.mem_cons_of_mem _ (ih h)

theorem goFind2_mem [DecidableEq κ] [DecidableEq κ2] {m : List (κ × List (κ2 × ν))}
    {k : κ} {k2 : κ2} {v : ν} (h : goFind2 m k k2 = some v) :
    ∃ inner, (k, inner) ∈ m ∧ (k2, v) ∈ inner := by
  unfold goFind2 at h
  cases hm : goFind m k with
  | none => rw [hm] at h; exact absurd h (by simp)
  | some inner =>
    rw [hm] at h
    exact ⟨inner, goFind_mem hm, goFind_mem h⟩

theorem mem_if_append {s : List votingPattern} {p q : votingPattern}
    (hq : q ∈ (if p ∈ s then s else s ++ [p])) : q ∈ s ∨ q = p := by
  by_cases h : p ∈ s
  · rw [if_pos h] at hq; exact Or.inl hq
  · rw [if_neg h] at hq
    rcases List.mem_append.mp hq with h1 | h1
    · exact Or.inl h1
    · exact Or.inr (by simpa using h1)

theorem voteBlockStep_spec (j : Nat)
    (acc : ninjaTortoise × List votingPattern × Option String) (block : ninjaBlock)
    (hblk : nbWF block) (hpat : tPatWF acc.1)
    (hq : ∀ q ∈ acc.2.1, q.layerId = j) :
    (voteBlockStep j acc block).1.pBase = acc.1.pBase ∧
    (voteBlockStep j acc block).1.tGood = acc.1.tGood ∧
    (voteBlockStep j acc block).1.tPatSupport = acc.1.tPatSupport ∧
    ∀ q ∈ (voteBlockStep j acc block).2.1, q.layerId = j := by
  unfold voteBlockStep
  dsimp only
  split
  next m heq => exact ⟨rfl, rfl, rfl, hq⟩
  next herr =>
    split
    next p hv =>
      have hpj : p.layerId = j := hblk (j, p) (goFind_mem hv)
      refine ⟨rfl, rfl, rfl, ?_⟩
      intro q hmem
      rcases mem_if_append hmem with h1 | h1
      · rcases mem_if_append h1 with h2 | h2
        · exact hq q h2
        · rw [h2]; exact hpj
      · rw [h1]; exact hpj
    next hv =>
      split
      next he => exact ⟨rfl, rfl, rfl, hq⟩
      next he => exact ⟨rfl, rfl, rfl, hq⟩
      next eff he =>
        split
        next hps => exact ⟨rfl, rfl, rfl, hq⟩
        next p hps =>
          obtain ⟨inner, hin, hin2⟩ := goFind2_mem hps
          have hpj : p.layerId = j := hpat (eff, inner) hin (j, p) hin2
          refine ⟨rfl, rfl, rfl, ?_⟩
          intro q hmem
          rcases mem_if_append hmem with h1 | h1
          · exact hq q h1
          · rw [h1]; exact hpj

theorem goodCheckStep_spec (i j : Nat) (acc : ninjaTortoise × Nat) (p : votingPattern)
    (hp : p.layerId = j) :
    (goodCheckStep i j acc p).1.pBase = acc.1.pBase ∧
    (goodCheckStep i j acc p).1.tPatSupport = acc.1.tPatSupport ∧
    (tGoodWF acc.1 → tGoodWF (goodCheckStep i j acc p).1) ∧
    ((goodCheckStep i j acc p).2 = acc.2 ∨ (goodCheckStep i j acc p).2 = j) := by
  have hgood : tGoodWF acc.1 →
      tGoodWF { acc.1 with tGood := goInsert acc.1.tGood p.layerId p } := by
    intro hwf kv hkv
    rcases mem_goInsert hkv with h1 | h1
    · rw [h1]
    · exact hwf kv h1
  unfold goodCheckStep
  dsimp only
  split
  next hcond =>
    split
    next hlt => exact ⟨rfl, rfl, hgood, Or.inr hp⟩
    next hlt => exact ⟨rfl, rfl, hgood, Or.inl rfl⟩
  next hcond => exact ⟨rfl, rfl, fun h => h, Or.inl rfl⟩

end NT

namespace NT

theorem tPatWF_of_eq {a b : ninjaTortoise} (h : b.tPatSupport = a.tPatSupport)
    (ha : tPatWF a) : tPatWF b := fun kv hkv => ha kv (h ▸ hkv)

theorem tGoodWF_of_eq {a b : ninjaTortoise} (h : b.tGood = a.tGood)
    (ha : tGoodWF a) : tGoodWF b := fun kv hkv => ha kv (h ▸ hkv)

theorem scanLayerStep_spec (ordS : List votingPattern → List votingPattern)
    (hord : ∀ (l : List votingPattern) (x : votingPattern), x ∈ ordS l → x ∈ l)
    (i : Nat) (b : List ninjaBlock) (hb : ∀ nb ∈ b, nbWF nb)
    (acc : ninjaTortoise × Nat × Option String) (j : Nat)
    (hpat : tPatWF acc.1) (hgood : tGoodWF acc.1) :
    (scanLayerStep ordS i b acc j).1.pBase = acc.1.pBase ∧
    (scanLayerStep ordS i b acc j).1.tPatSupport = acc.1.tPatSupport ∧
    tGoodWF (scanLayerStep ordS i b acc j).1 ∧
    ((scanLayerStep ordS i b acc j).2.1 = acc.2.1 ∨ (scanLayerStep ordS i b acc j).2.1 = j) := by
  have hvb := foldl_preserve_mem
    (fun x : ninjaTortoise × List votingPattern × Option String =>
      x.1.pBase = acc.1.pBase ∧ x.1.tGood = acc.1.tGood ∧
        x.1.tPatSupport = acc.1.tPatSupport ∧ ∀ q ∈ x.2.1, q.layerId = j)
    (voteBlockStep j)
    (fun x blk hmem hx => by
      have hs := voteBlockStep_spec j x blk (hb blk hmem)
        (fun kv hkv => hpat kv (hx.2.2.1 ▸ hkv)) hx.2.2.2
      exact ⟨hs.1.trans hx.1, hs.2.1.trans hx.2.1, hs.2.2.1.trans hx.2.2.1, hs.2.2.2⟩)
    b (fun y hy => hy) (acc.1, ([], none)) ⟨rfl, rfl, rfl, by simp⟩
  unfold scanLayerStep
  dsimp only
  split
  next m herr => exact ⟨rfl, rfl, hgood, Or.inl rfl⟩
  next herr =>
    split
    next msg hmsg =>
      exact ⟨hvb.1, hvb.2.2.1, tGoodWF_of_eq hvb.2.1 hgood, Or.inl rfl⟩
    next hmsg =>
      have hgc := foldl_preserve_mem
        (fun y : ninjaTortoise × Nat =>
          y.1.pBase = acc.1.pBase ∧ y.1.tPatSupport = acc.1.tPatSupport ∧
            tGoodWF y.1 ∧ (y.2 = acc.2.1 ∨ y.2 = j))
        (goodCheckStep i j)
        (fun y p hpmem hy => by
          have hpj : p.layerId = j := hvb.2.2.2 p (hord _ p hpmem)
          have hs := goodCheckStep_spec i j y p hpj
          refine ⟨hs.1.trans hy.1, hs.2.1.trans hy.2.1, hs.2.2.1 hy.2.2.1, ?_⟩
          rcases hs.2.2.2 with h1 | h1
          · rw [h1]; exact hy.2.2.2
          · exact Or.inr h1)
        (ordS (b.foldl (voteBlockStep j) (acc.1, ([], none))).2.1) (fun y hy => hy)
        ((b.foldl (voteBlockStep j) (acc.1, ([], none))).1, acc.2.1)
        ⟨hvb.1, hvb.2.2.1, tGoodWF_of_eq hvb.2.1 hgood, Or.inl rfl⟩
      exact ⟨hgc.1, hgc.2.1, hgc.2.2.1, hgc.2.2.2⟩

theorem findMinimalGoodLayer_spec (ordS : List votingPattern → List votingPattern)
    (hord : ∀ (l : List votingPattern) (x : votingPattern), x ∈ ordS l → x ∈ l)
    (s : ExecSt) (i : Nat) (b : List ninjaBlock)
    (hb : ∀ nb ∈ b, nbWF nb) (hgood : tGoodWF s.ni) (hpat : tPatWF s.ni) :
    (findMinimalGoodLayer ordS s i b).1.ni.pBase = s.ni.pBase ∧
    (findMinimalGoodLayer ordS s i b).1.ni.tPatSupport = s.ni.tPatSupport ∧
    tGoodWF (findMinimalGoodLayer ordS s i b).1.ni ∧
    s.ni.pBase.layerId ≤ (findMinimalGoodLayer ordS s i b).2 := by
  unfold findMinimalGoodLayer
  dsimp only
  split
  next m herr => exact ⟨rfl, rfl, hgood, Nat.le_refl _⟩
  next herr =>
    have hj0 : s.ni.pBase.layerId + 1 ≤
        (if i < Window then s.ni.pBase.layerId + 1
         else max (s.ni.pBase.layerId + 1) (i - Window)) := by
      split
      · exact Nat.le_refl _
      · exact Nat.le_max_left _ _
    have hfold := foldl_preserve_mem
      (fun acc : ninjaTortoise × Nat × Option String =>
        acc.1.pBase = s.ni.pBase ∧ acc.1.tPatSupport = s.ni.tPatSupport ∧
          tGoodWF acc.1 ∧
          (acc.2.1 = s.ni.pBase.layerId ∨ s.ni.pBase.layerId + 1 ≤ acc.2.1))
      (scanLayerStep ordS i b)
      (fun acc j hj hacc => by
        have hs := scanLayerStep_spec ordS hord i b hb acc j
          (fun kv hkv => hpat kv (hacc.2.1 ▸ hkv)) hacc.2.2.1
        refine ⟨hs.1.trans hacc.1, hs.2.1.trans hacc.2.1, hs.2.2.1, ?_⟩
        rcases hs.2.2.2 with h1 | h1
        · rw [h1]; exact hacc.2.2.2
        · right
          rw [h1]
          exact Nat.le_trans hj0 (List.mem_range'_1.mp hj).1)
      (List.range'
        (if i < Window then s.ni.pBase.layerId + 1
         else max (s.ni.pBase.layerId + 1) (i - Window))
        (i - (if i < Window then s.ni.pBase.layerId + 1
              else max (s.ni.pBase.layerId + 1) (i - Window))))
      (fun y hy => hy) (s.ni, (s.ni.pBase.layerId, none)) ⟨rfl, rfl, hgood, Or.inl rfl⟩
    refine ⟨hfold.1, hfold.2.1, hfold.2.2.1, ?_⟩
    rcases hfold.2.2.2 with h1 | h1
    · rw [h1]
    · exact Nat.le_trans (Nat.le_succ _) h1

end NT

namespace NT

/-- Frame: the state pieces relevant to the frontier argument. -/
def frameEq (a b : ninjaTortoise) : Prop :=
  b.pBase = a.pBase ∧ b.tGood = a.tGood ∧ b.tPatSupport = a.tPatSupport

theorem frameEq_refl (a : ninjaTortoise) : frameEq a a := ⟨rfl, rfl, rfl⟩

theorem frameEq_trans {a b c : ninjaTortoise} (h1 : frameEq a b) (h2 : frameEq b c) :
    frameEq a c := ⟨h2.1.trans h1.1, h2.2.1.trans h1.2.1, h2.2.2.trans h1.2.2⟩

theorem seedTallyStep_frame (p : votingPattern) (ni : ninjaTortoise) (kv : Nat × Option Nat) :
    frameEq ni (seedTallyStep p ni kv) := by
  simp [seedTallyStep, frameEq]

theorem tallyApplyBlock_frame (g p : votingPattern) (corr : Option Nat) (effCount : Int)
    (t : ExecSt) (b : Nat) : frameEq t.ni (tallyApplyBlock g p corr effCount t b).ni := by
  unfold tallyApplyBlock
  dsimp only
  split
  · exact frameEq_refl _
  next =>
    split
    · exact frameEq_refl _
    next =>
      split
      · exact frameEq_refl _
      next =>
        split
        · exact ⟨rfl, rfl, rfl⟩
        · exact ⟨rfl, rfl, rfl⟩

theorem tallyApplyLayer_frame (g p : votingPattern) (corr : Option Nat) (effCount : Int)
    (t : ExecSt) (i : Nat) : frameEq t.ni (tallyApplyLayer g p corr effCount t i).ni := by
  unfold tallyApplyLayer
  split
  · exact frameEq_refl _
  next layer hl =>
    exact foldl_preserve (fun x : ExecSt => frameEq t.ni x.ni)
      (tallyApplyBlock g p corr effCount)
      (fun x y hx => frameEq_trans hx (tallyApplyBlock_frame g p corr effCount x y))
      layer t (frameEq_refl _)

theorem updatePatternTally_frame (s : ExecSt) (g p : votingPattern) :
    frameEq s.ni (updatePatternTally s g p).ni := by
  unfold updatePatternTally
  dsimp only
  split
  · exact frameEq_refl _
  next herr =>
    split
    · exact frameEq_refl _
    next vst hok =>
      split
      · exact ⟨rfl, rfl, rfl⟩
      next hnone =>
        refine foldl_preserve (fun x : ExecSt => frameEq s.ni x.ni) _
          (fun x y hx => frameEq_trans hx (tallyApplyLayer_frame _ _ _ _ x y))
          _ _ ⟨rfl, rfl, rfl⟩

theorem replayGoodStep_frame (p : votingPattern) (t : ExecSt) (k : Nat) :
    frameEq t.ni (replayGoodStep p t k).ni := by
  unfold replayGoodStep
  split
  · exact frameEq_refl _
  next =>
    split
    · exact frameEq_refl _
    · exact updatePatternTally_frame _ _ _

theorem addPatternVote_frame (p : votingPattern) (ni : ninjaTortoise) (b : ninjaBlock) :
    frameEq ni (addPatternVote p ni b) := by
  simp [addPatternVote, frameEq]

theorem bfsLoop_preserve {σ : Type u} (P : σ → Prop) (blocks : List (Nat × ninjaBlock))
    (layer : Nat) (visit : σ → ninjaBlock → σ)
    (hvisit : ∀ s b, P s → P (visit s b)) :
    ∀ (fuel : Nat) (stack seen : List Nat) (counter : List (Nat × Nat)) (s : σ)
      (res : List (Nat × Nat) × σ),
      P s → bfsLoop blocks layer visit fuel stack seen counter s = .ok res → P res.2 := by
  intro fuel
  induction fuel with
  | zero =>
    intro stack seen counter s res hP hrun
    simp [bfsLoop] at hrun
  | succ n ih =>
    intro stack seen counter s res hP hrun
    cases stack with
    | nil =>
      simp only [bfsLoop] at hrun
      cases hrun
      exact hP
    | cons a rest =>
      rw [bfsLoop] at hrun
      cases hba : goFind blocks a with
      | none => rw [hba] at hrun; exact absurd hrun (by simp)
      | some block =>
        rw [hba] at hrun
        exact ih _ _ _ _ res (hvisit s block hP) hrun

theorem forBlockInView_preserve {σ : Type u} (P : σ → Prop)
    (blocks : List (Nat × ninjaBlock)) (seeds : List Nat) (layer : Nat)
    (visit : σ → ninjaBlock → σ) (hvisit : ∀ s b, P s → P (visit s b))
    (s : σ) (res : List (Nat × Nat) × σ) (hP : P s)
    (hrun : forBlockInView blocks seeds layer visit s = .ok res) : P res.2 :=
  bfsLoop_preserve P blocks layer visit hvisit _ _ _ _ s res hP hrun

theorem updateCorrectionVectors_frame (ni : ninjaTortoise) (p : votingPattern) :
    frameEq ni (updateCorrectionVectors ni p) := by
  unfold updateCorrectionVectors
  refine foldl_preserve (fun x : ninjaTortoise => frameEq ni x) _ (fun x y hx => ?_) _ _
    (frameEq_refl _)
  refine foldl_preserve (fun z : ninjaTortoise => frameEq ni z) _ (fun z w hz => ?_) _ _ hx
  dsimp only
  split
  · exact hz
  · exact frameEq_trans hz ⟨rfl, rfl, rfl⟩

theorem tallyDefaultFill_frame (p : votingPattern) (lvc : List (Nat × Nat)) (i : Nat)
    (t : ExecSt) (bid : Nat) : frameEq t.ni (tallyDefaultFill p lvc i t bid).ni := by
  unfold tallyDefaultFill
  dsimp only
  split
  · exact frameEq_refl _
  next =>
    split
    · exact ⟨rfl, rfl, rfl⟩
    · exact ⟨rfl, rfl, rfl⟩

theorem tallyBlockOpinion_frame (p : votingPattern) (lvc : List (Nat × Nat)) (i : Nat)
    (acc : ExecSt × List Nat × Bool) (bid : Nat) :
    frameEq acc.1.ni (tallyBlockOpinion p lvc i acc bid).1.ni := by
  have h1 := tallyDefaultFill_frame p lvc i acc.1 bid
  unfold tallyBlockOpinion
  dsimp only
  split
  · exact frameEq_refl _
  next herr =>
    split
    · exact h1
    next =>
      split
      · exact h1
      next b hb =>
        split
        · exact h1
        · exact h1
        · exact frameEq_trans h1 ⟨rfl, rfl, rfl⟩

end NT

namespace NT

theorem opinionLayerStep_spec (p : votingPattern) (lvc : List (Nat × Nat))
    (acc : ExecSt × Bool) (i : Nat) :
    (opinionLayerStep p lvc acc i).1.ni.pBase = acc.1.ni.pBase ∧
    (opinionLayerStep p lvc acc i).1.ni.tGood = acc.1.ni.tGood ∧
    (tPatWF acc.1.ni → tPatWF (opinionLayerStep p lvc acc i).1.ni) := by
  unfold opinionLayerStep
  dsimp only
  split
  · exact ⟨rfl, rfl, fun h => h⟩
  next herr =>
    split
    · exact ⟨rfl, rfl, fun h => h⟩
    next layer hl =>
      have hr := foldl_preserve
        (fun x : ExecSt × List Nat × Bool => frameEq acc.1.ni x.1.ni)
        (tallyBlockOpinion p lvc i)
        (fun x y hx => frameEq_trans hx (tallyBlockOpinion_frame p lvc i x y))
        layer (acc.1, ([], acc.2)) (frameEq_refl _)
      split
      next herr2 => exact ⟨hr.1, hr.2.1, fun h => tPatWF_of_eq hr.2.2 h⟩
      next herr2 =>
        refine ⟨hr.1, hr.2.1, ?_⟩
        intro h kv hkv
        have hWFr : tPatWF (layer.foldl (tallyBlockOpinion p lvc i)
            (acc.1, ([], acc.2))).1.ni := tPatWF_of_eq hr.2.2 h
        rcases mem_goInsert hkv with h1 | h1
        · rw [h1]
          intro kv2 hkv2
          rcases mem_goInsert hkv2 with h2 | h2
          · rw [h2]
          · cases hin : goFind (layer.foldl (tallyBlockOpinion p lvc i)
                (acc.1, ([], acc.2))).1.ni.tPatSupport p with
            | none => rw [hin] at h2; simp at h2
            | some inn =>
              rw [hin] at h2
              exact hWFr (p, inn) (goFind_mem hin) kv2 h2
        · exact hWFr kv h1

theorem goodLayerStep_spec (s : ExecSt) (j : Nat)
    (hgood : tGoodWF s.ni) (hpat : tPatWF s.ni) :
    (goodLayerStep s j).ni.tGood = s.ni.tGood ∧
    tPatWF (goodLayerStep s j).ni ∧
    ((goodLayerStep s j).ni.pBase = s.ni.pBase ∨ (goodLayerStep s j).ni.pBase.layerId = j) := by
  unfold goodLayerStep
  dsimp only
  split
  · exact ⟨rfl, hpat, Or.inl rfl⟩
  next herr =>
    split
    · exact ⟨rfl, hpat, Or.inl rfl⟩
    next p hp =>
      have hpj : p.layerId = j := hgood (j, p) (goFind_mem hp)
      have hseed : frameEq s.ni
          (((goFind s.ni.tTally s.ni.pBase).getD []).foldl (seedTallyStep p) s.ni) :=
        foldl_preserve (fun x : ninjaTortoise => frameEq s.ni x) (seedTallyStep p)
          (fun x y hx => frameEq_trans hx (seedTallyStep_frame p x y)) _ _ (frameEq_refl _)
      have hs2 : ∀ (l : List Nat) (t0 : ExecSt), frameEq s.ni t0.ni →
          frameEq s.ni (l.foldl (replayGoodStep p) t0).ni :=
        fun l t0 h0 => foldl_preserve (fun x : ExecSt => frameEq s.ni x.ni)
          (replayGoodStep p)
          (fun x y hx => frameEq_trans hx (replayGoodStep_frame p x y)) l t0 h0
      generalize hS2 : (List.range' _ _).foldl (replayGoodStep p) _ = s2
      have hfr2 : frameEq s.ni s2.ni := by
        rw [← hS2]
        exact hs2 _ _ hseed
      split
      · exact ⟨hfr2.2.1, tPatWF_of_eq hfr2.2.2 hpat, Or.inl hfr2.1⟩
      next herr2 =>
        split
        next msg hbf => exact ⟨hfr2.2.1, tPatWF_of_eq hfr2.2.2 hpat, Or.inl hfr2.1⟩
        next bfres hbf =>
          have hbfr : frameEq s.ni bfres.2 :=
            forBlockInView_preserve (fun x : ninjaTortoise => frameEq s.ni x)
              s2.ni.blocks ((goFind s2.ni.tPattern p).getD []) s2.ni.pBase.layerId
              (addPatternVote p)
              (fun x b hx => frameEq_trans hx (addPatternVote_frame p x b))
              s2.ni bfres hfr2 hbf
          have hni3 : frameEq s.ni (updateCorrectionVectors bfres.2 p) :=
            frameEq_trans hbfr (updateCorrectionVectors_frame bfres.2 p)
          have hol := foldl_preserve
            (fun x : ExecSt × Bool => x.1.ni.pBase = s.ni.pBase ∧
              x.1.ni.tGood = s.ni.tGood ∧ tPatWF x.1.ni)
            (opinionLayerStep p bfres.1)
            (fun x y hx => by
              have ho := opinionLayerStep_spec p bfres.1 x y
              exact ⟨ho.1.trans hx.1, ho.2.1.trans hx.2.1, ho.2.2 hx.2.2⟩)
            (List.range' (updateCorrectionVectors bfres.2 p).pBase.layerId
              (j + 1 - (updateCorrectionVectors bfres.2 p).pBase.layerId))
            ({ s2 with ni := updateCorrectionVectors bfres.2 p }, true)
            ⟨hni3.1, hni3.2.1, tPatWF_of_eq hni3.2.2 hpat⟩
          split
          next herr3 => exact ⟨hol.2.1, hol.2.2, Or.inl hol.1⟩
          next herr3 =>
            split
            next hflag => exact ⟨hol.2.1, tPatWF_of_eq rfl hol.2.2, Or.inr hpj⟩
            next hflag => exact ⟨hol.2.1, hol.2.2, Or.inl hol.1⟩

end NT

namespace NT

theorem processPatternsStep_frame (acc : ninjaTortoise ×
    List (Nat × votingPattern) × Option votingPattern) (kv : Nat × List Nat) :
    frameEq acc.1 (processPatternsStep acc kv).1 := by
  simp [processPatternsStep, frameEq]

theorem processPatternsStep_nbwf (acc : ninjaTortoise ×
    List (Nat × votingPattern) × Option votingPattern) (kv : Nat × List Nat) :
    ∀ e ∈ (processPatternsStep acc kv).2.1, e.2.layerId = e.1 := by
  intro e he
  simp only [processPatternsStep] at he
  rcases mem_goInsert he with h1 | h1
  · rw [h1]
  · simp at h1

theorem processBlock_spec (ordP : List (Nat × List Nat) → List (Nat × List Nat))
    (s : ExecSt) (b : Block) :
    frameEq s.ni (processBlock ordP s b).1.ni ∧
    ∀ nb, (processBlock ordP s b).2 = some nb → nbWF nb := by
  unfold processBlock
  cases hs : s.err with
  | some m => exact ⟨frameEq_refl _, fun nb h => by simp at h⟩
  | none =>
    cases hb : buildPatterns s.ni.blocks b.blockVotes [] with
    | none => exact ⟨frameEq_refl _, fun nb h => by simp at h⟩
    | some patterns =>
      have hfold := foldl_preserve
        (fun acc : ninjaTortoise × List (Nat × votingPattern) × Option votingPattern =>
          frameEq s.ni acc.1 ∧ ∀ e ∈ acc.2.1, e.2.layerId = e.1)
        processPatternsStep
        (fun x y hx => ⟨frameEq_trans hx.1 (processPatternsStep_frame x y),
          processPatternsStep_nbwf x y⟩)
        (ordP patterns) (s.ni, ([], none)) ⟨frameEq_refl _, by simp⟩
      constructor
      · cases heff : ((ordP patterns).foldl processPatternsStep (s.ni, ([], none))).2.2 with
        | none =>
          simp only [heff]
          exact frameEq_trans hfold.1 ⟨rfl, rfl, rfl⟩
        | some eff =>
          simp only [heff]
          exact frameEq_trans hfold.1 ⟨rfl, rfl, rfl⟩
      · intro nb hnb
        cases heff : ((ordP patterns).foldl processPatternsStep (s.ni, ([], none))).2.2 with
        | none =>
          simp only [heff, Option.some.injEq] at hnb
          rw [← hnb]
          exact hfold.2
        | some eff =>
          simp only [heff, Option.some.injEq] at hnb
          rw [← hnb]
          exact hfold.2

theorem processBatchStep_spec (ordP : List (Nat × List Nat) → List (Nat × List Nat))
    (i : Nat) (acc : ExecSt × List ninjaBlock) (blk : Block) :
    frameEq acc.1.ni (processBatchStep ordP i acc blk).1.ni ∧
    ((∀ nb ∈ acc.2, nbWF nb) → ∀ nb ∈ (processBatchStep ordP i acc blk).2, nbWF nb) := by
  have hpb := processBlock_spec ordP acc.1 blk
  unfold processBatchStep
  dsimp only
  constructor
  · split
    · exact hpb.1
    · exact frameEq_trans hpb.1 ⟨rfl, rfl, rfl⟩
  · intro hacc nb hnb
    have hmem : nb ∈ (match (processBlock ordP acc.1 blk).2 with
        | none => acc.2
        | some nb2 => acc.2 ++ [nb2]) := by
      split at hnb <;> exact hnb
    rcases hpb2 : (processBlock ordP acc.1 blk).2 with _ | nb2
    · rw [hpb2] at hmem
      exact hacc nb hmem
    · rw [hpb2] at hmem
      rcases List.mem_append.mp hmem with h1 | h1
      · exact hacc nb h1
      · have : nb = nb2 := by simpa using h1
        rw [this]
        exact hpb.2 nb2 hpb2

end NT

namespace NT

/-- **C8** (amended).  For every engine state satisfying the two
key-layer invariants (`tGood[j]` holds a layer-`j` pattern,
`tPatSupport[p][j]` holds a layer-`j` pattern — both hold initially and
are preserved by every call), an `UpdateTables` call preserves the
invariants and never decreases the stored `pBase.Layer`; a call with
layer argument `i ≠ 0` returns the new `pBase.Layer`, while a genesis
call (`i = 0`) returns the literal `0` and leaves `pBase` unchanged.
The value returned is therefore `≥` the prior frontier for every
layer-non-decreasing call sequence from the initial state, the regime
the spec's collaborator contract prescribes; `c8_counterexample` shows
the genesis early-return breaks the claim's unconditional reading. -/
theorem c8_amended (ordP : List (Nat × List Nat) → List (Nat × List Nat))
    (ordS : List votingPattern → List votingPattern)
    (hord : ∀ (l : List votingPattern) (x : votingPattern), x ∈ ordS l → x ∈ l)
    (s : ExecSt) (B : List Block) (i : Nat)
    (hgood : tGoodWF s.ni) (hpat : tPatWF s.ni) :
    tGoodWF (UpdateTables ordP ordS s B i).1.ni ∧
    tPatWF (UpdateTables ordP ordS s B i).1.ni ∧
    s.ni.pBase.layerId ≤ (UpdateTables ordP ordS s B i).1.ni.pBase.layerId ∧
    (i = 0 → (UpdateTables ordP ordS s B i).2 = 0 ∧
      (UpdateTables ordP ordS s B i).1.ni.pBase = s.ni.pBase) ∧
    (i ≠ 0 → (UpdateTables ordP ordS s B i).2 =
      (UpdateTables ordP ordS s B i).1.ni.pBase.layerId) := by
  have hbatch := foldl_preserve
    (fun acc : ExecSt × List ninjaBlock =>
      frameEq s.ni acc.1.ni ∧ ∀ nb ∈ acc.2, nbWF nb)
    (processBatchStep ordP i)
    (fun x y hx =>
      ⟨frameEq_trans hx.1 (processBatchStep_spec ordP i x y).1,
        (processBatchStep_spec ordP i x y).2 hx.2⟩)
    B (s, []) ⟨frameEq_refl _, by simp⟩
  unfold UpdateTables
  dsimp only
  by_cases hi : i = 0
  · rw [if_pos hi]
    exact ⟨tGoodWF_of_eq hbatch.1.2.1 hgood, tPatWF_of_eq hbatch.1.2.2 hpat,
      le_of_eq (by rw [hbatch.1.1]), fun _ => ⟨rfl, hbatch.1.1⟩, fun h => absurd hi h⟩
  · rw [if_neg hi]
    have hfm := findMinimalGoodLayer_spec ordS hord
      (B.foldl (processBatchStep ordP i) (s, [])).1 i
      (B.foldl (processBatchStep ordP i) (s, [])).2 hbatch.2
      (tGoodWF_of_eq hbatch.1.2.1 hgood) (tPatWF_of_eq hbatch.1.2.2 hpat)
    have hjl := foldl_preserve_mem
      (fun t : ExecSt => tGoodWF t.ni ∧ tPatWF t.ni ∧
        s.ni.pBase.layerId ≤ t.ni.pBase.layerId)
      goodLayerStep
      (fun t j hj ht => by
        have hg := goodLayerStep_spec t j ht.1 ht.2.1
        refine ⟨tGoodWF_of_eq hg.1 ht.1, hg.2.1, ?_⟩
        rcases hg.2.2 with h1 | h1
        · rw [h1]; exact ht.2.2
        · rw [h1]
          have hj2 : (findMinimalGoodLayer ordS
              (B.foldl (processBatchStep ordP i) (s, [])).1 i
              (B.foldl (processBatchStep ordP i) (s, [])).2).2 ≤ j :=
            (List.mem_range'_1.mp hj).1
          refine Nat.le_trans ?_ hj2
          rw [← hbatch.1.1]
          exact hfm.2.2.2)
      (List.range'
        (findMinimalGoodLayer ordS (B.foldl (processBatchStep ordP i) (s, [])).1 i
          (B.foldl (processBatchStep ordP i) (s, [])).2).2
        (i - (findMinimalGoodLayer ordS (B.foldl (processBatchStep ordP i) (s, [])).1 i
          (B.foldl (processBatchStep ordP i) (s, [])).2).2))
      (fun y hy => hy)
      (findMinimalGoodLayer ordS (B.foldl (processBatchStep ordP i) (s, [])).1 i
        (B.foldl (processBatchStep ordP i) (s, [])).2).1
      ⟨hfm.2.2.1,
        tPatWF_of_eq hfm.2.1 (tPatWF_of_eq hbatch.1.2.2 hpat),
        le_of_eq (by rw [hfm.1, hbatch.1.1])⟩
    exact ⟨hjl.1, hjl.2.1, hjl.2.2, fun h => absurd h hi, fun _ => rfl⟩

/-- Witness for `c8_amended`: a concrete non-genesis call from the
initial state (the first call of the `LayerSize = 1` trace at layer 1). -/
theorem c8_amended_witness :
    tGoodWF (UpdateTables ordId ordId (initSt 1) [blkA] 1).1.ni ∧
    tPatWF (UpdateTables ordId ordId (initSt 1) [blkA] 1).1.ni ∧
    (initSt 1).ni.pBase.layerId ≤ (UpdateTables ordId ordId (initSt 1) [blkA] 1).1.ni.pBase.layerId ∧
    (1 = 0 → (UpdateTables ordId ordId (initSt 1) [blkA] 1).2 = 0 ∧
      (UpdateTables ordId ordId (initSt 1) [blkA] 1).1.ni.pBase = (initSt 1).ni.pBase) ∧
    (1 ≠ 0 → (UpdateTables ordId ordId (initSt 1) [blkA] 1).2 =
      (UpdateTables ordId ordId (initSt 1) [blkA] 1).1.ni.pBase.layerId) :=
  c8_amended ordId ordId (fun l x hx => hx) (initSt 1) [blkA] 1
    (fun kv hkv => by simp [initSt, initTortoise] at hkv)
    (fun kv hkv => by simp [initSt, initTortoise] at hkv)

end NT

namespace NT

/-! ## C6: forBlockInView traversal -/

/-- Ids reachable by the traversal: the seeds, plus the view-edge
children of any reachable block that sits strictly above the cutoff
layer (the source only descends in that case). -/
inductive ReachView (blocks : List (Nat × ninjaBlock)) (seeds : List Nat) (layer : Nat) :
    Nat → Prop where
  | seed (a : Nat) (ha : a ∈ seeds) : ReachView blocks seeds layer a
  | step (a c : Nat) (blk : ninjaBlock) (ha : ReachView blocks seeds layer a)
      (hblk : goFind blocks a = some blk) (hl : blk.block.layerId > layer)
      (hc : c ∈ blk.block.viewEdges) : ReachView blocks seeds layer c

/-- The worklist loop of `forBlockInView`, recording the popped ids
instead of running a visitor; `bfsLoop` with any visitor is this loop
followed by a fold of the visitor over the recorded ids
(`bfsLoop_eq_trace`). -/
def bfsTrace (blocks : List (Nat × ninjaBlock)) (layer : Nat) :
    Nat → List Nat → List Nat → List (Nat × Nat) → List Nat →
    Except String (List (Nat × Nat) × List Nat)
  | 0, _, _, _, _ => .error "out of fuel"
  | _ + 1, [], _, counter, acc => .ok (counter, acc)
  | fuel + 1, a :: rest, seen, counter, acc =>
    match goFind blocks a with
    | none => .error "nil block dereference"
    | some block =>
      let counter2 := goInsert counter block.block.layerId
        ((goFind counter block.block.layerId).getD 0 + 1)
      let sp := pushChildren block layer (seen, rest)
      bfsTrace blocks layer fuel sp.2 sp.1 counter2 (acc ++ [a])

/-- Replay a visitor over a list of popped ids. -/
def applyVisits (blocks : List (Nat × ninjaBlock)) (visit : σ → ninjaBlock → σ)
    (s : σ) (ids : List Nat) : σ :=
  ids.foldl (fun s a =>
    match goFind blocks a with
    | none => s
    | some b => visit s b) s

theorem applyVisits_append_found {σ : Type u} (blocks : List (Nat × ninjaBlock))
    (visit : σ → ninjaBlock → σ) (s : σ) (ids : List Nat) (a : Nat) (block : ninjaBlock)
    (ha : goFind blocks a = some block) :
    applyVisits blocks visit s (ids ++ [a]) = visit (applyVisits blocks visit s ids) block := by
  unfold applyVisits
  rw [List.foldl_append]
  simp [ha]

theorem bfsLoop_eq_trace {σ : Type u} (blocks : List (Nat × ninjaBlock)) (layer : Nat)
    (visit : σ → ninjaBlock → σ) :
    ∀ (fuel : Nat) (stack seen : List Nat) (counter : List (Nat × Nat)) (s : σ)
      (acc : List Nat),
      bfsLoop blocks layer visit fuel stack seen counter (applyVisits blocks visit s acc)
        = (bfsTrace blocks layer fuel stack seen counter acc).map
            (fun r => (r.1, applyVisits blocks visit s r.2)) := by
  intro fuel
  induction fuel with
  | zero => intro stack seen counter s acc; rfl
  | succ n ih =>
    intro stack seen counter s acc
    cases stack with
    | nil => rfl
    | cons a rest =>
      rw [bfsLoop, bfsTrace]
      cases hba : goFind blocks a with
      | none => rfl
      | some block =>
        dsimp only
        rw [← applyVisits_append_found blocks visit s acc a block hba]
        exact ih _ _ _ s (acc ++ [a])

/-- `forBlockInView` with any visitor equals the id-recording run,
followed by replaying the visitor over the recorded ids. -/
theorem forBlockInView_eq_trace {σ : Type u} (blocks : List (Nat × ninjaBlock))
    (seeds : List Nat) (layer : Nat) (visit : σ → ninjaBlock → σ) (s : σ) :
    forBlockInView blocks seeds layer visit s
      = (bfsTrace blocks layer (bfsFuel blocks seeds) seeds.reverse [] [] []).map
          (fun r => (r.1, applyVisits blocks visit s r.2)) :=
  bfsLoop_eq_trace blocks layer visit (bfsFuel blocks seeds) seeds.reverse [] [] s []

theorem pushFold_spec (blk : ninjaBlock) (layer : Nat) :
    ∀ (edges seen st : List Nat),
      ∃ news : List Nat,
        edges.foldl (fun acc c =>
            if blk.block.layerId > layer then
              if c ∈ acc.1 then acc else (acc.1 ++ [c], acc.2 ++ [c])
            else acc) (seen, st)
          = (seen ++ news, st ++ news) ∧
        news.Nodup ∧
        (∀ c ∈ news, c ∈ edges ∧ layer < blk.block.layerId ∧ c ∉ seen) ∧
        (layer < blk.block.layerId → ∀ c ∈ edges, c ∈ seen ++ news)
  | [], seen, st => ⟨[], by simp, List.nodup_nil, by simp, by simp⟩
  | c :: cs, seen, st => by
    by_cases hl : blk.block.layerId > layer
    · by_cases hc : c ∈ seen
      · obtain ⟨news, heq, hnd, hmem, hcl⟩ := pushFold_spec blk layer cs seen st
        refine ⟨news, by simpa [hl, hc] using heq, hnd, ?_, ?_⟩
        · exact fun x hx => ⟨(hmem x hx).1.tail _, (hmem x hx).2.1, (hmem x hx).2.2⟩
        · intro h2 x hx
          rcases List.mem_cons.mp hx with rfl | hx2
          · exact List.mem_append.mpr (Or.inl hc)
          · exact hcl h2 x hx2
      · obtain ⟨news2, heq, hnd, hmem, hcl⟩ := pushFold_spec blk layer cs (seen ++ [c]) (st ++ [c])
        refine ⟨c :: news2, ?_, ?_, ?_, ?_⟩
        · simpa [hl, hc] using heq
        · refine List.Nodup.cons (fun hx => ?_) hnd
          have := (hmem c hx).2.2
          simp at this
        · intro x hx
          rcases List.mem_cons.mp hx with rfl | hx2
          · exact ⟨List.mem_cons_self _ _, hl, hc⟩
          · have hm := hmem x hx2
            refine ⟨(hm.1).tail _, hm.2.1, fun hxs => hm.2.2 (by simp [hxs])⟩
        · intro h2 x hx
          rcases List.mem_cons.mp hx with rfl | hx2
          · simp
          · have := hcl h2 x hx2
            simpa [List.append_assoc] using this
    · have hconst : ∀ (es : List Nat) (p : List Nat × List Nat),
          es.foldl (fun acc c2 =>
            if blk.block.layerId > layer then
              if c2 ∈ acc.1 then acc else (acc.1 ++ [c2], acc.2 ++ [c2])
            else acc) p = p := by
        intro es
        induction es with
        | nil => intro p; rfl
        | cons e es2 ih => intro p; rw [List.foldl_cons, if_neg hl]; exact ih p
      exact ⟨[], by simp [hconst], List.nodup_nil, by simp, fun h2 => absurd h2 hl⟩

/-- `pushChildren` in terms of the generic fold. -/
theorem pushChildren_spec (blk : ninjaBlock) (layer : Nat) (seen st : List Nat) :
    ∃ news : List Nat,
      pushChildren blk layer (seen, st) = (seen ++ news, st ++ news) ∧
      news.Nodup ∧
      (∀ c ∈ news, c ∈ blk.block.viewEdges ∧ layer < blk.block.layerId ∧ c ∉ seen) ∧
      (layer < blk.block.layerId → ∀ c ∈ blk.block.viewEdges, c ∈ seen ++ news) :=
  pushFold_spec blk layer blk.block.viewEdges seen st

end NT

namespace NT

/-- All ids that can ever be pushed as children: the view-edge targets
of the known blocks. -/
def bfsTargets (blocks : List (Nat × ninjaBlock)) : List Nat :=
  (blocks.map (fun kv => kv.2.block.viewEdges)).flatten

theorem nodup_subset_length_le {l l2 : List Nat} (hnd : l.Nodup)
    (hsub : ∀ x ∈ l, x ∈ l2) : l.length ≤ l2.dedup.length := by
  have h1 : l.toFinset.card = l.length := List.toFinset_card_of_nodup hnd
  have h2 : l2.toFinset.card = l2.dedup.length := List.card_toFinset l2
  have h3 : l.toFinset ⊆ l2.toFinset := by
    intro x hx
    rw [List.mem_toFinset] at hx ⊢
    exact hsub x hx
  have := Finset.card_le_card h3
  omega

/-- The layer predicate counted by the per-layer visit counter. -/
def layerPred (blocks : List (Nat × ninjaBlock)) (L : Nat) (x : Nat) : Bool :=
  decide ((goFind blocks x).map (fun b2 => b2.block.layerId) = some L)

theorem bfsTrace_run (blocks : List (Nat × ninjaBlock)) (seeds : List Nat) (layer : Nat)
    (Hknown : ∀ a, ReachView blocks seeds layer a → (goFind blocks a).isSome = true)
    (Hnoseed : ∀ a ∈ seeds, ∀ kv ∈ blocks, a ∉ kv.2.block.viewEdges) :
    ∀ (fuel : Nat) (stack seen acc : List Nat) (counter : List (Nat × Nat)),
      (acc ++ stack).Nodup →
      (∀ x ∈ acc ++ stack, x ∈ seeds ∨ x ∈ seen) →
      (∀ x ∈ seen, x ∈ acc ++ stack) →
      (∀ x ∈ seeds, x ∈ acc ++ stack) →
      (∀ x ∈ acc ++ stack, ReachView blocks seeds layer x) →
      (∀ a ∈ acc, ∀ blk, goFind blocks a = some blk → layer < blk.block.layerId →
        ∀ c ∈ blk.block.viewEdges, c ∈ seen) →
      (∀ x ∈ seen, x ∈ bfsTargets blocks) →
      seen.Nodup →
      (∀ L, (goFind counter L).getD 0 = acc.countP (layerPred blocks L)) →
      stack.length + ((bfsTargets blocks).dedup.length - seen.length) < fuel →
      ∃ counter2 ids,
        bfsTrace blocks layer fuel stack seen counter acc = .ok (counter2, ids) ∧
        ids.Nodup ∧ (∀ x ∈ seeds, x ∈ ids) ∧
        (∀ x ∈ ids, ReachView blocks seeds layer x) ∧
        (∀ a ∈ ids, ∀ blk, goFind blocks a = some blk → layer < blk.block.layerId →
          ∀ c ∈ blk.block.viewEdges, c ∈ ids) ∧
        (∀ L, (goFind counter2 L).getD 0 = ids.countP (layerPred blocks L)) := by
  intro fuel
  induction fuel with
  | zero =>
    intro stack seen acc counter _ _ _ _ _ _ _ _ _ hfuel
    exact absurd hfuel (by omega)
  | succ n ih =>
    intro stack seen acc counter hA hB hC hD hE hF hSub hSnd hG hfuel
    cases stack with
    | nil =>
      refine ⟨counter, acc, rfl, by simpa using hA, fun x hx => by simpa using hD x hx,
        fun x hx => hE x (by simpa using hx), ?_, hG⟩
      intro a ha blk hblk hlay c hc
      have := hF a ha blk hblk hlay c hc
      simpa using hC c this
    | cons a rest =>
      have haMem : a ∈ acc ++ a :: rest := by simp
      have haReach : ReachView blocks seeds layer a := hE a haMem
      cases hba : goFind blocks a with
      | none =>
        have := Hknown a haReach
        rw [hba] at this
        simp at this
      | some block =>
        obtain ⟨news, heq, hnd, hmem, hcl⟩ := pushChildren_spec block layer seen rest
        have hblkMem : (a, block) ∈ blocks := goFind_mem hba
        have hnewsTar : ∀ x ∈ news, x ∈ bfsTargets blocks := by
          intro x hx
          refine List.mem_flatten.mpr ⟨block.block.viewEdges, ?_, (hmem x hx).1⟩
          exact List.mem_map.mpr ⟨(a, block), hblkMem, rfl⟩
        have hnewsNotSeed : ∀ x ∈ news, x ∉ seeds := by
          intro x hx hxs
          exact Hnoseed x hxs (a, block) hblkMem (hmem x hx).1
        have hrearr : acc ++ a :: rest = (acc ++ [a]) ++ rest := by simp
        have hnewsFresh : ∀ x ∈ news, x ∉ (acc ++ [a]) ++ rest := by
          intro x hx hxin
          rcases hB x (by rw [hrearr]; exact hxin) with hs | hs
          · exact hnewsNotSeed x hx hs
          · exact (hmem x hx).2.2 hs
        have hA2 : ((acc ++ [a]) ++ (rest ++ news)).Nodup := by
          have h0 : ((acc ++ [a]) ++ rest).Nodup := by rw [← hrearr]; exact hA
          have : (((acc ++ [a]) ++ rest) ++ news).Nodup :=
            h0.append hnd (fun x hx1 hx2 => hnewsFresh x hx2 hx1)
          simpa [List.append_assoc] using this
        have hmemSplit : ∀ x, x ∈ (acc ++ [a]) ++ (rest ++ news) →
            x ∈ acc ++ a :: rest ∨ x ∈ news := by
          intro x hx
          rcases List.mem_append.mp hx with h1 | h1
          · exact Or.inl (by rw [hrearr]; exact List.mem_append.mpr (Or.inl h1))
          · rcases List.mem_append.mp h1 with h2 | h2
            · exact Or.inl (by rw [hrearr]; exact List.mem_append.mpr (Or.inr h2))
            · exact Or.inr h2
        have hB2 : ∀ x ∈ (acc ++ [a]) ++ (rest ++ news), x ∈ seeds ∨ x ∈ seen ++ news := by
          intro x hx
          rcases hmemSplit x hx with h1 | h1
          · rcases hB x h1 with h2 | h2
            · exact Or.inl h2
            · exact Or.inr (List.mem_append.mpr (Or.inl h2))
          · exact Or.inr (List.mem_append.mpr (Or.inr h1))
        have hold2new : ∀ x, x ∈ acc ++ a :: rest → x ∈ (acc ++ [a]) ++ (rest ++ news) := by
          intro x hx
          rw [hrearr] at hx
          rcases List.mem_append.mp hx with h1 | h1
          · exact List.mem_append.mpr (Or.inl h1)
          · exact List.mem_append.mpr (Or.inr (List.mem_append.mpr (Or.inl h1)))
        have hC2 : ∀ x ∈ seen ++ news, x ∈ (acc ++ [a]) ++ (rest ++ news) := by
          intro x hx
          rcases List.mem_append.mp hx with h1 | h1
          · exact hold2new x (hC x h1)
          · exact List.mem_append.mpr (Or.inr (List.mem_append.mpr (Or.inr h1)))
        have hD2 : ∀ x ∈ seeds, x ∈ (acc ++ [a]) ++ (rest ++ news) :=
          fun x hx => hold2new x (hD x hx)
        have hE2 : ∀ x ∈ (acc ++ [a]) ++ (rest ++ news), ReachView blocks seeds layer x := by
          intro x hx
          rcases hmemSplit x hx with h1 | h1
          · exact hE x h1
          · exact ReachView.step a x block haReach hba (hmem x h1).2.1 (hmem x h1).1
        have hF2 : ∀ a2 ∈ acc ++ [a], ∀ blk, goFind blocks a2 = some blk →
            layer < blk.block.layerId → ∀ c ∈ blk.block.viewEdges, c ∈ seen ++ news := by
          intro a2 ha2 blk hblk hlay c hc
          rcases List.mem_append.mp ha2 with h1 | h1
          · exact List.mem_append.mpr (Or.inl (hF a2 h1 blk hblk hlay c hc))
          · have ha2a : a2 = a := by simpa using h1
            subst ha2a
            rw [hba] at hblk
            cases hblk
            exact hcl hlay c hc
        have hSub2 : ∀ x ∈ seen ++ news, x ∈ bfsTargets blocks := by
          intro x hx
          rcases List.mem_append.mp hx with h1 | h1
          · exact hSub x h1
          · exact hnewsTar x h1
        have hSnd2 : (seen ++ news).Nodup :=
          hSnd.append hnd (fun x hx1 hx2 => (hmem x hx2).2.2 hx1)
        have hG2 : ∀ L, (goFind (goInsert counter block.block.layerId
            ((goFind counter block.block.layerId).getD 0 + 1)) L).getD 0
            = (acc ++ [a]).countP (layerPred blocks L) := by
          intro L
          rw [List.countP_append]
          by_cases hL : block.block.layerId = L
          · subst hL
            rw [goFind_goInsert_self]
            have hpa : layerPred blocks block.block.layerId a = true := by
              simp [layerPred, hba]
            simp [List.countP_cons, hpa, hG block.block.layerId]
          · rw [goFind_goInsert_ne _ _ _ _ hL]
            have hpa : layerPred blocks L a = false := by
              simp [layerPred, hba]
              exact fun h => absurd h hL
            simp [List.countP_cons, hpa, hG L]
        have hTbound : seen.length + news.length ≤ (bfsTargets blocks).dedup.length := by
          have : (seen ++ news).length ≤ (bfsTargets blocks).dedup.length :=
            nodup_subset_length_le hSnd2 hSub2
          simpa using this
        have hfuel2 : (rest ++ news).length +
            ((bfsTargets blocks).dedup.length - (seen ++ news).length) < n := by
          simp only [List.length_append, List.length_cons] at hfuel ⊢
          omega
        rw [bfsTrace, hba]
        dsimp only
        rw [heq]
        exact ih (rest ++ news) (seen ++ news) (acc ++ [a]) _
          hA2 hB2 hC2 hD2 hE2 hF2 hSub2 hSnd2 hG2 hfuel2

end NT

namespace NT

/-- **C6** (amended).  Provided every reachable id is a known block, the
seed ids are pairwise distinct, *and no seed id occurs among the view
edges of any known block* (the source never marks seeds as seen, so a
seed reachable as a child is visited again — `c6_counterexample`),
`forBlockInView` visits each reachable block exactly once: the run
records a duplicate-free id list containing exactly the reachable ids,
the returned counter counts the visited blocks per layer, and running
any visitor is the same run followed by replaying the visitor over those
ids in order.  Descent into children happens only from blocks strictly
above the cutoff layer, which is built into the reachability relation. -/
theorem c6_amended (blocks : List (Nat × ninjaBlock)) (seeds : List Nat) (layer : Nat)
    (Hknown : ∀ a, ReachView blocks seeds layer a → (goFind blocks a).isSome = true)
    (Hnodup : seeds.Nodup)
    (Hnoseed : ∀ a ∈ seeds, ∀ kv ∈ blocks, a ∉ kv.2.block.viewEdges) :
    ∃ counter ids,
      bfsTrace blocks layer (bfsFuel blocks seeds) seeds.reverse [] [] []
        = .ok (counter, ids) ∧
      ids.Nodup ∧
      (∀ x, x ∈ ids ↔ ReachView blocks seeds layer x) ∧
      (∀ L, (goFind counter L).getD 0 = ids.countP (layerPred blocks L)) ∧
      (∀ (σ : Type u) (visit : σ → ninjaBlock → σ) (s : σ),
        forBlockInView blocks seeds layer visit s
          = .ok (counter, applyVisits blocks visit s ids)) := by
  have hfuel0 : seeds.reverse.length + ((bfsTargets blocks).dedup.length - 0)
      < bfsFuel blocks seeds := by
    have h1 : (bfsTargets blocks).dedup.length ≤ (bfsTargets blocks).length :=
      (List.dedup_sublist _).length_le
    have h2 : (bfsTargets blocks).length
        = (blocks.map (fun kv => kv.2.block.viewEdges.length)).sum := by
      simp only [bfsTargets, List.length_flatten, List.map_map]
      rfl
    simp only [bfsFuel, List.length_reverse]
    omega
  obtain ⟨counter, ids, hrun, hnd, hseeds, hsound, hclosure, hcount⟩ :=
    bfsTrace_run blocks seeds layer Hknown Hnoseed (bfsFuel blocks seeds)
      seeds.reverse [] [] []
      (by simpa using List.nodup_reverse.mpr Hnodup)
      (fun x hx => Or.inl (by simpa using hx))
      (fun x hx => by simp at hx)
      (fun x hx => by simpa using hx)
      (fun x hx => ReachView.seed x (by simpa using hx))
      (fun a ha => by simp at ha)
      (fun x hx => by simp at hx)
      List.nodup_nil
      (fun L => by simp [goFind])
      hfuel0
  have hreach : ∀ x, ReachView blocks seeds layer x → x ∈ ids := by
    intro x hx
    induction hx with
    | seed a ha => exact hseeds a ha
    | step a c blk ha hblk hl hc iha => exact hclosure a iha blk hblk hl c hc
  refine ⟨counter, ids, hrun, hnd, fun x => ⟨hsound x, hreach x⟩, hcount, ?_⟩
  intro σ visit s
  rw [forBlockInView_eq_trace, hrun]
  rfl

/-- The two-block graph on which the unamended claim fails: block `1`
(layer 2) has a view edge to block `2` (layer 1), and both are seeds. -/
def nbX : ninjaBlock :=
  { block := { id := 1, layerId := 2, blockVotes := [], viewEdges := [2] }, blockVotes := [] }

def nbY : ninjaBlock :=
  { block := { id := 2, layerId := 1, blockVotes := [], viewEdges := [] }, blockVotes := [] }

def demoBlocks : List (Nat × ninjaBlock) := [(1, nbX), (2, nbY)]

/-- **C6** (counterexample).  With the distinct seeds `[1, 2]`, cutoff
layer 0, and every id known (`demoBlocks` holds exactly the ids 1 and 2
and the only view edge targets 2), the visitor is invoked on block `2`
twice — once as a seed and once as the child of block `1`, because seeds
are never added to the seen set — refuting "visits each reachable block
exactly once"; the per-layer counter likewise records two layer-1
visits. -/
theorem c6_counterexample :
    forBlockInView demoBlocks [1, 2] 0 (fun (l : List Nat) b => l ++ [b.block.id]) []
      = .ok ([(1, 2), (2, 1)], [2, 1, 2]) ∧
    (2 ∈ ([1, 2] : List Nat)) ∧
    List.count 2 [2, 1, 2] = 2 ∧
    demoBlocks.map Prod.fst = [1, 2] ∧
    (goFind demoBlocks 1).isSome = true ∧ (goFind demoBlocks 2).isSome = true ∧
    nbX.block.viewEdges = [2] ∧ nbY.block.viewEdges = [] := by
  refine ⟨?_, by decide, by decide, by decide, by decide, by decide, by decide, by decide⟩
  rfl

/-- Witness for `c6_amended` on `demoBlocks` with the single seed `[1]`
(no seed is a view-edge target there). -/
theorem c6_amended_witness :
    ∃ counter ids,
      bfsTrace demoBlocks 0 (bfsFuel demoBlocks [1]) [1].reverse [] [] []
        = .ok (counter, ids) ∧
      ids.Nodup ∧
      (∀ x, x ∈ ids ↔ ReachView demoBlocks [1] 0 x) ∧
      (∀ L, (goFind counter L).getD 0 = ids.countP (layerPred demoBlocks L)) ∧
      (∀ (σ : Type) (visit : σ → ninjaBlock → σ) (s : σ),
        forBlockInView demoBlocks [1] 0 visit s
          = .ok (counter, applyVisits demoBlocks visit s ids)) := by
  refine c6_amended demoBlocks [1] 0 ?_ (by decide) (by decide)
  have hsub : ∀ a, ReachView demoBlocks [1] 0 a → a ∈ ([1, 2] : List Nat) := by
    intro a ha
    induction ha with
    | seed a ha => simp at ha; simp [ha]
    | step a c blk ha hblk hl hc iha =>
      have hmem : (a, blk) ∈ demoBlocks := goFind_mem hblk
      rcases List.mem_cons.mp hmem with h1 | h1
      · have : blk = nbX := by simpa [demoBlocks] using congrArg Prod.snd h1
        rw [this] at hc
        simp [nbX] at hc
        simp [hc]
      · rcases List.mem_cons.mp h1 with h2 | h2
        · have : blk = nbY := by simpa [demoBlocks] using congrArg Prod.snd h2
          rw [this] at hc
          simp [nbY] at hc
        · simp at h2
  intro a ha
  rcases List.mem_cons.mp (hsub a ha) with h1 | h1
  · rw [h1]; decide
  · rcases List.mem_cons.mp h1 with h2 | h2
    · rw [h2]; decide
    · simp at h2

end NT
